import Mathlib

/-!
Verification of the elastic-binary-tree indirect multi-byte engine
(`__ebim_lookup`, `__ebim_insert` in the indirect multi-byte header, and
`ebst_lookup_len` in ebsttree.c) against its natural-language specification.

Keys are modelled as finite lists of bytes, read as if zero-padded beyond
their end (the zero-terminated-string usage).  The intrusive pointer
structure is modelled as an inductive tree: a leaf is a record addressed
through its leaf aspect, an internal position is some record's node aspect
carrying the signed split bit (`node->bit`) and that record's key
(`node->key`, which the source reads during descent).

The externally declared helpers (`equal_bits`, `cmp_bits`, `ebx_insert_dup`,
`ebmb_lookup`) are not part of the sources; they are modelled from the
specification's interface contracts (spec section 6) and marked as such.
-/

namespace Ebim

/-- A byte of a key buffer; keys are finite byte lists read as zero-padded
beyond their end. -/
def byteAt (k : List Nat) (i : Nat) : Nat := k.getD i 0

/-- Bit `i` of the zero-padded key stream, counted from the most significant
bit of byte 0 (bit 0 is the MSB of the first byte). -/
def keyBit (k : List Nat) (i : Nat) : Bool := Nat.testBit (byteAt k (i / 8)) (7 - i % 8)

/-- All entries are genuine bytes (below 256), as C's unsigned char guarantees. -/
def validK (k : List Nat) : Bool := k.all (fun c => c < 256)

/-- memcmp equality of `n` bytes of both buffers starting at offset `pos`. -/
def memEq (a b : List Nat) (pos : Nat) : Nat → Bool
  | 0 => true
  | n + 1 => (byteAt a pos == byteAt b pos) && memEq a b (pos + 1) n

/-- The two key streams agree on all bit positions below `n`. -/
def agreeB (a b : List Nat) (n : Nat) : Bool :=
  (List.range n).all (fun i => keyBit a i == keyBit b i)

/-- Equality of the zero-padded byte streams. -/
def streamEq (a b : List Nat) : Bool :=
  (List.range (max a.length b.length)).all (fun i => byteAt a i == byteAt b i)

/-- Lexicographic comparison of the zero-padded byte streams, examining `n`
bytes starting at byte index `i`: the first differing byte decides. -/
def keyLeAux (a b : List Nat) : Nat → Nat → Bool
  | _, 0 => true
  | i, n + 1 =>
    if byteAt a i = byteAt b i then keyLeAux a b (i + 1) n
    else byteAt a i < byteAt b i

/-- Lexicographic order on zero-padded key streams. -/
def keyLe (a b : List Nat) : Bool := keyLeAux a b 0 (max a.length b.length)

/-- Modelled from the spec: `first-difference(keyA, keyB, startBit, limitBit)`,
the smallest bit index that is at least `i` and below `limit` where the two
keys differ, or `limit` when they are identical throughout.  (`equal_bits` is
declared in ebxtree.h, which is not among the sources.) -/
def equal_bits (a b : List Nat) (i limit : Nat) : Nat :=
  if _h : i < limit then
    if keyBit a i == keyBit b i then equal_bits a b (i + 1) limit else i
  else limit
termination_by limit - i

/-- Modelled from the spec: `compare-bit(keyA, keyB, bitPos)`, the sign of
keyA's bit minus keyB's bit at `pos`.  (`cmp_bits` is declared in ebxtree.h,
which is not among the sources.) -/
def cmp_bits (a b : List Nat) (pos : Nat) : Int :=
  (if keyBit a pos then 1 else 0) - (if keyBit b pos then 1 else 0)

/-- A caller-owned record (struct ebxpt_node): an identity and the indirect
key.  The node/leaf aspects are represented by the tree structure itself. -/
structure Record where
  id : Nat
  key : List Nat
deriving DecidableEq, Repr

/-- The tree spanned by tagged references: a leaf holds a record through its
leaf aspect; an internal position is some record's node aspect, carrying the
signed split bit (`node->bit`: nonnegative ordinary split, negative duplicate
anchor) and that record's key (the `node->key` the source compares against). -/
inductive Ebt where
  | leaf (r : Record)
  | node (bit : Int) (l r : Ebt) (rc : Record)
deriving DecidableEq, Repr

/-- The tree handle: `b[EB_LEFT]` holds the root subtree or is empty, and
`b[EB_RGHT]`'s tag is the unique-keys flag. -/
structure EbRoot where
  tree : Option Ebt
  unique : Bool
deriving DecidableEq, Repr

/-- In-order list of the leaf records (the stored associations). -/
def leavesR : Ebt → List Record
  | .leaf r => [r]
  | .node _ l r _ => leavesR l ++ leavesR r

/-- Every key appearing in a subtree: leaf keys and internal node keys. -/
def keysT : Ebt → List (List Nat)
  | .leaf r => [r.key]
  | .node _ l r rc => rc.key :: (keysT l ++ keysT r)

/-- The leftmost leaf (the walk_down loop: keep following `b[EB_LEFT]`). -/
def leftmost : Ebt → Record
  | .leaf r => r
  | .node _ l _ _ => leftmost l

/-- The byte-skip inner loop of `__ebim_lookup` (source lines 102-110):
compare whole bytes of `x` and the node key while the node's bit lies beyond
them.  `rem` is the remaining length (the source's decremented `len`), `nb`
the source's negative `node_bit` counter.  Returns `none` on a byte mismatch
(ret_null), `.inl ()` when the length is exhausted (walk_left), and
`.inr pos` on reaching the byte that contains the node's bit. -/
def skipBytes (k x : List Nat) : Nat → Nat → Int → Option (Sum Unit Nat)
  | pos, rem, nb =>
    if byteAt k pos != byteAt x pos then none
    else if _h1 : rem - 1 = 0 then some (Sum.inl ())
    else if 0 ≤ nb + 8 then some (Sum.inr (pos + 1))
    else skipBytes k x (pos + 1) (rem - 1) (nb + 8)
termination_by _pos rem _nb => rem
decreasing_by omega

/-- The main loop of `__ebim_lookup` (source lines 67-123), one call per
subtree descended into; `pos` counts the bytes fully verified so far (the
source advances `x` and decrements `len` in lockstep with `pos`, so the
remaining length is `len - pos`). -/
def lookupLoop (x : List Nat) (len : Nat) : Ebt → Nat → Option Record
  | .leaf r, pos => if memEq r.key x pos (len - pos) then some r else none
  | .node bit l r rc, pos =>
    if bit < 0 then
      -- duplicate subtree: one full comparison, then walk down on the left
      if memEq rc.key x pos (len - pos) then some (leftmost l) else none
    else
      match (if (8 * pos + 7 : Int) - bit < 0 then
               skipBytes rc.key x pos (len - pos) (8 * pos + 7 - bit)
             else some (Sum.inr pos)) with
      | none => none
      | some (Sum.inl _) => some (leftmost l)
      | some (Sum.inr pos1) =>
        let nb := ((8 * pos1 + 7 : Int) - bit).toNat
        if (byteAt rc.key pos1 >>> nb) ^^^ (byteAt x pos1 >>> nb) > 1 then none
        else if (byteAt x pos1 >>> nb) % 2 == 1 then lookupLoop x len r pos1
        else lookupLoop x len l pos1

/-- `__ebim_lookup` (source lines 51-135). -/
def ebim_lookup (root : EbRoot) (x : List Nat) (len : Nat) : Option Record :=
  match root.tree with
  | none => none
  | some t => if len = 0 then some (leftmost t) else lookupLoop x len t 0

/-- Modelled from the spec: `duplicate-chain-insert(anchorRecord, newRecord)`
links the newcomer into the duplicate group (`ebx_insert_dup` lives in
ebxtree.h, which is not among the sources; its internal ordering policy is
explicitly unspecified, spec sections 6 and 9).  This model attaches the
newcomer at the rightmost position, keeping earlier members to the left, and
the newcomer is the record returned (the caller treats it as now occupying
the position). -/
def dupInsert : Ebt → Record → Ebt
  | .leaf r, n => .node (-1) (.leaf r) (.leaf n) r
  | .node b l r rc, n => .node b l (dupInsert r n) rc

/-- The descent-and-splice loop of `__ebim_insert` (source lines 179-327),
one call per subtree descended into, with the running bit counter `bv` (the
source's `bit` variable).  Returns the subtree that replaces the argument
and the record the call returns.  `L` is the compared length in bits (the
source's `len` after `len <<= 3`). -/
def insLoop (L : Nat) (uniq : Bool) (nw : Record) : Ebt → Nat → Ebt × Record
  | .leaf old, bv =>
    let d := equal_bits nw.key old.key bv L
    -- source line 216: the guard compares (bit >> 3) with len, len in bits
    let diff := if d / 8 < L then cmp_bits nw.key old.key d else 0
    if diff < 0 then (.node (d : Int) (.leaf nw) (.leaf old) nw, nw)
    else if diff = 0 && uniq then (.leaf old, old)
    else if diff = 0 then (.node (-1) (.leaf old) (.leaf nw) nw, nw)
    else (.node (d : Int) (.leaf old) (.leaf nw) nw, nw)
  | .node ob l r rc, bv =>
    if ob < 0 then
      -- above a duplicate tree: compare till the end, then the 3-way splice
      let d := equal_bits nw.key rc.key bv L
      let diff := if d / 8 < L then cmp_bits nw.key rc.key d else 0
      if diff < 0 then (.node (d : Int) (.leaf nw) (.node ob l r rc) nw, nw)
      else if diff > 0 then (.node (d : Int) (.node ob l r rc) (.leaf nw) nw, nw)
      else (dupInsert (.node ob l r rc) nw, nw)
    else
      let d := if (bv : Int) < ob then equal_bits nw.key rc.key bv ob.toNat else bv
      if (d : Int) < ob then
        -- we do not have all bits in common: splice above the whole subtree
        let diff := if d / 8 < L then cmp_bits nw.key rc.key d else 0
        if diff < 0 then (.node (d : Int) (.leaf nw) (.node ob l r rc) nw, nw)
        else if diff > 0 then (.node (d : Int) (.node ob l r rc) (.leaf nw) nw, nw)
        else (dupInsert (.node ob l r rc) nw, nw)
      else
        -- walk down on the side selected by the new key's bit at ob
        let side := (byteAt nw.key (ob.toNat / 8) >>> (7 - ob.toNat % 8)) % 2
        if side = 1 then
          let p := insLoop L uniq nw r d
          (.node ob l p.1 rc, p.2)
        else
          let p := insLoop L uniq nw l d
          (.node ob p.1 r rc, p.2)

/-- `__ebim_insert` (source lines 142-328). -/
def ebim_insert (root : EbRoot) (nw : Record) (len : Nat) : EbRoot × Record :=
  match root.tree with
  | none => (⟨some (.leaf nw), root.unique⟩, nw)
  | some t =>
    let p := insLoop (8 * len) root.unique nw t 0
    (⟨some p.1, root.unique⟩, p.2)

/-- Modelled from the spec: the sibling inline-key engine's lookup
`ebmb_lookup` used by ebsttree.c ("same semantics as section 4.1 but keys
are stored inline"; ebmbtree.h is not among the sources).  With keys modelled
as byte lists, inline and indirect lookup coincide. -/
def ebmb_lookup (root : EbRoot) (x : List Nat) (len : Nat) : Option Record :=
  ebim_lookup root x len

/-- `ebst_lookup_len` (src/ebsttree.c lines 45-53). -/
def ebst_lookup_len (root : EbRoot) (x : List Nat) (len : Nat) : Option Record :=
  match ebmb_lookup root x len with
  | none => none
  | some node => if byteAt node.key len != 0 then none else some node

/-! ### Well-formedness and auxiliary structural predicates -/

/-- Structural well-formedness (the spec section 3 invariants).  At an
ordinary split point, every key reachable on the left agrees with the node's
key below the split bit and carries bit value 0 there, every key on the
right likewise with bit value 1; below a duplicate anchor, every key equals
the anchor's key as a zero-padded stream; and all stored bytes are bytes. -/
def wfT : Ebt → Bool
  | .leaf r => validK r.key
  | .node b l r rc =>
    validK rc.key && wfT l && wfT r &&
    (if b < 0 then (keysT l ++ keysT r).all (fun m => streamEq m rc.key)
     else
       (keysT l).all (fun m => agreeB m rc.key b.toNat && (keyBit m b.toNat == false)) &&
       (keysT r).all (fun m => agreeB m rc.key b.toNat && (keyBit m b.toNat == true)))

/-- Every ordinary split bit lies below `L` (keys are compared on `L` bits). -/
def bitsLt (L : Nat) : Ebt → Bool
  | .leaf _ => true
  | .node b l r _ => (b < 0 || b < (L : Int)) && bitsLt L l && bitsLt L r

/-- Every ordinary split bit is at least `lo`. -/
def lowAll (lo : Nat) : Ebt → Bool
  | .leaf _ => true
  | .node b l r _ => (b < 0 || (lo : Int) ≤ b) && lowAll lo l && lowAll lo r

/-- No duplicate anchors anywhere in the subtree. -/
def anchorFree : Ebt → Bool
  | .leaf _ => true
  | .node b l r _ => (0 ≤ b) && anchorFree l && anchorFree r

/-- Every key of the subtree fits within `n` bytes. -/
def lensLe (n : Nat) (t : Ebt) : Bool := (keysT t).all (fun k => k.length ≤ n)

/-- Ordinary split bits strictly increase along every root-to-leaf path. -/
def strictInc : Ebt → Bool
  | .leaf _ => true
  | .node b l r _ =>
    (if 0 ≤ b then lowAll (b.toNat + 1) l && lowAll (b.toNat + 1) r else true) &&
    strictInc l && strictInc r

/-- Every ordinary split bit is exactly the first-difference position between
any key reachable on its left and any key reachable on its right. -/
def splitFD : Ebt → Bool
  | .leaf _ => true
  | .node b l r _ =>
    (if 0 ≤ b then
       (keysT l).all (fun kl => (keysT r).all (fun kr =>
         equal_bits kl kr 0 (b.toNat + 1) == b.toNat))
     else true) &&
    splitFD l && splitFD r

/-- The subtree at a root-to-leaf path (`false` = left, `true` = right). -/
def subtreeAt : Ebt → List Bool → Option Ebt
  | t, [] => some t
  | .leaf _, _ :: _ => none
  | .node _ l r _, s :: p => if s then subtreeAt r p else subtreeAt l p

/-- Replace the subtree at a path (identity when the path misses). -/
def replaceAt : Ebt → List Bool → Ebt → Ebt
  | _, [], sub => sub
  | .leaf q, _ :: _, _ => .leaf q
  | .node b l r rc, s :: p, sub =>
    if s then .node b l (replaceAt r p sub) rc else .node b (replaceAt l p sub) r rc

/-- The claim-facing match predicate: the record's key agrees with `x` on the
first `8 * lenB` bits. -/
def matchesB (x : List Nat) (lenB : Nat) (r : Record) : Bool :=
  agreeB r.key x (8 * lenB)

/-- The two keys agree on the full compared length of `lenB` bytes. -/
def MatchL (lenB : Nat) (a b : List Nat) : Prop := ∀ i < 8 * lenB, keyBit a i = keyBit b i

instance (lenB : Nat) (a b : List Nat) : Decidable (MatchL lenB a b) :=
  inferInstanceAs (Decidable (∀ i < 8 * lenB, keyBit a i = keyBit b i))

/-- Outcome description of one `insLoop` call, used by the insertion
theorems: rejection in a unique tree, a first-duplicate anchor splice at a
leaf, a hand-off to the duplicate chain at an anchor, or an ordinary splice
when no stored key matches the new key on the compared length. -/
def InsOutcome (lenB : Nat) (uniq : Bool) (nw : Record) (t t' : Ebt) (ret : Record) : Prop :=
  (uniq = true ∧ t' = t ∧ ret ∈ leavesR t ∧ MatchL lenB nw.key ret.key) ∨
  (uniq = false ∧ ret = nw ∧ ∃ p old, subtreeAt t p = some (.leaf old) ∧
    MatchL lenB nw.key old.key ∧
    t' = replaceAt t p (.node (-1) (.leaf old) (.leaf nw) nw)) ∨
  (ret = nw ∧ ∃ p b l r rc, subtreeAt t p = some (.node b l r rc) ∧ b < 0 ∧
    MatchL lenB nw.key rc.key ∧
    t' = replaceAt t p (dupInsert (.node b l r rc) nw)) ∨
  (ret = nw ∧ (∀ m ∈ leavesR t, ∃ i, i < 8 * lenB ∧ keyBit nw.key i ≠ keyBit m.key i) ∧
    ∃ (p : List Bool) (s : Ebt) (d : Nat), subtreeAt t p = some s ∧
      (t' = replaceAt t p (.node (d : Int) (.leaf nw) s nw) ∨
       t' = replaceAt t p (.node (d : Int) s (.leaf nw) nw)))

/-- Number of positions the main loop of `__ebim_lookup` visits (one per
internal node treated by the while loop; the terminal walk_down and the
returned leaf are not counted). -/
def lookSteps (x : List Nat) (len : Nat) : Ebt → Nat → Nat
  | .leaf _, _ => 0
  | .node bit l r rc, pos =>
    if bit < 0 then 1
    else
      match (if (8 * pos + 7 : Int) - bit < 0 then
               skipBytes rc.key x pos (len - pos) (8 * pos + 7 - bit)
             else some (Sum.inr pos)) with
      | none => 1
      | some (Sum.inl _) => 1
      | some (Sum.inr pos1) =>
        let nb := ((8 * pos1 + 7 : Int) - bit).toNat
        if (byteAt rc.key pos1 >>> nb) ^^^ (byteAt x pos1 >>> nb) > 1 then 1
        else if (byteAt x pos1 >>> nb) % 2 == 1 then 1 + lookSteps x len r pos1
        else 1 + lookSteps x len l pos1

/-- Number of positions the descent loop of `__ebim_insert` visits before it
splices, rejects or hands off to the duplicate chain. -/
def insSteps (nw : Record) : Ebt → Nat → Nat
  | .leaf _, _ => 0
  | .node ob l r rc, bv =>
    if ob < 0 then 1
    else
      let d := if (bv : Int) < ob then equal_bits nw.key rc.key bv ob.toNat else bv
      if (d : Int) < ob then 1
      else
        let side := (byteAt nw.key (ob.toNat / 8) >>> (7 - ob.toNat % 8)) % 2
        if side = 1 then 1 + insSteps nw r d
        else 1 + insSteps nw l d

/-- Repeated insertion with a fixed per-call length (the insert sequences of
the testable properties). -/
def insertAll (lenB : Nat) : EbRoot → List Record → EbRoot
  | t, [] => t
  | t, q :: rest => insertAll lenB (ebim_insert t q lenB).1 rest

/-! ### Concrete fixtures for witnesses and counterexamples -/

/-- "app", zero-terminated. -/
def rApp : Record := ⟨1, [97, 112, 112, 0]⟩

/-- "apple", zero-terminated. -/
def rApple : Record := ⟨2, [97, 112, 112, 108, 101, 0]⟩

/-- "apply", zero-terminated. -/
def rApply : Record := ⟨3, [97, 112, 112, 108, 121, 0]⟩

/-- The tree obtained by inserting apple, apply (length 6) and then app
(length 4) into an empty non-unique tree. -/
def tApp : Ebt :=
  .node 25 (.leaf rApp)
    (.node 35 (.leaf rApple) (.leaf rApply) rApply) rApp

/-- Failing input for the past-the-end comparison: two bytes, the compared
length is one byte. -/
def rb1 : Record := ⟨1, [0, 0]⟩

/-- Second failing-input record: agrees with rb1 on the compared byte. -/
def rb2 : Record := ⟨2, [0, 128]⟩

/-- One-byte records for the duplicate fixtures. -/
def rc1 : Record := ⟨30, [9]⟩

/-- A record with the same key as rc1 but a different identity. -/
def rc2 : Record := ⟨31, [9]⟩

/-- A well-formed tree of one-byte keys whose main-loop descent for key 0
visits nine internal positions: eight ordinary split points (bits 0..7) and
one duplicate anchor. -/
def T9 : Ebt :=
  .node 0
    (.node 1
      (.node 2
        (.node 3
          (.node 4
            (.node 5
              (.node 6
                (.node 7
                  (.node (-1) (.leaf ⟨18, [0]⟩) (.leaf ⟨19, [0]⟩) ⟨18, [0]⟩)
                  (.leaf ⟨17, [1]⟩) ⟨17, [1]⟩)
                (.leaf ⟨16, [2]⟩) ⟨16, [2]⟩)
              (.leaf ⟨15, [4]⟩) ⟨15, [4]⟩)
            (.leaf ⟨14, [8]⟩) ⟨14, [8]⟩)
          (.leaf ⟨13, [16]⟩) ⟨13, [16]⟩)
        (.leaf ⟨12, [32]⟩) ⟨12, [32]⟩)
      (.leaf ⟨11, [64]⟩) ⟨11, [64]⟩)
    (.leaf ⟨10, [128]⟩) ⟨10, [128]⟩

/-! ### A pointer-store model of `__ebim_insert` (for the frame claim)

The structural model above abstracts away the link slots.  To reason about
which memory slots an insertion writes, the following model represents every
link slot explicitly, mirroring the source's `ebx_setlink`/`ebx_getroot`
accesses one for one.  Records are identified by numbers; a tagged pointer
carries its target and the tag bit (`EB_LEFT`/`EB_LEAF` = 0,
`EB_RGHT`/`EB_NODE` = 1, as in ebxtree.h, which is not among the sources —
the tag values are modelled from the spec's description of tagged parent and
branch pointers). -/

/-- A pointer target: the tree handle (`struct ebx_root *`) or a record's
branches block, named by the record's number. -/
inductive EPtr where
  | rt
  | br (id : Nat)
deriving DecidableEq, Repr

/-- A tagged pointer (`ebx_troot_t *` after `ebx_dotag`). -/
structure TPtr where
  base : EPtr
  tag : Nat
deriving DecidableEq, Repr

/-- The slot store: the handle's two branch slots, each record's two branch
slots, node-aspect parent slot, leaf-aspect parent slot, split-bit field and
key.  `none` models a null link. -/
structure IStore where
  rootB : Nat → Option TPtr
  branchB : Nat → Nat → Option TPtr
  nodeP : Nat → Option TPtr
  leafP : Nat → Option TPtr
  nodeBit : Nat → Int
  keyOf : Nat → List Nat

/-- Write a record's node-aspect parent slot. -/
def setNodeP (st : IStore) (i : Nat) (v : Option TPtr) : IStore :=
  { st with nodeP := fun j => if j = i then v else st.nodeP j }

/-- Write a record's leaf-aspect parent slot. -/
def setLeafP (st : IStore) (i : Nat) (v : Option TPtr) : IStore :=
  { st with leafP := fun j => if j = i then v else st.leafP j }

/-- Write a record's split-bit field. -/
def setNodeBit (st : IStore) (i : Nat) (b : Int) : IStore :=
  { st with nodeBit := fun j => if j = i then b else st.nodeBit j }

/-- Write branch slot `i` of the handle (`.rt`) or of a record's branches. -/
def setB (st : IStore) (p : EPtr) (i : Nat) (v : Option TPtr) : IStore :=
  match p with
  | .rt => { st with rootB := fun m => if m = i then v else st.rootB m }
  | .br j => { st with branchB := fun m i2 => if m = j ∧ i2 = i then v else st.branchB m i2 }

/-- Read a branch slot (`ebx_getroot(&root->b[i])`). -/
def getB (st : IStore) (p : EPtr) (i : Nat) : Option TPtr :=
  match p with
  | .rt => st.rootB i
  | .br j => st.branchB j i

/-- The first-difference position of the two keys (source lines 209, 259). -/
def leafD (st : IStore) (nw old bv L : Nat) : Nat :=
  equal_bits (st.keyOf nw) (st.keyOf old) bv L

/-- `diff` as computed at source lines 215-217 and 286-288 after a
full-length comparison, including the past-the-end guard as written. -/
def leafDiff (st : IStore) (nw old bv L : Nat) : Int :=
  if leafD st nw old bv L / 8 < L then
    cmp_bits (st.keyOf nw) (st.keyOf old) (leafD st nw old bv L)
  else 0

/-- `bit` after the bounded comparison at source lines 262-264. -/
def descD (st : IStore) (nw old bv : Nat) : Nat :=
  if (bv : Int) < st.nodeBit old then
    equal_bits (st.keyOf nw) (st.keyOf old) bv (st.nodeBit old).toNat
  else bv

/-- `diff` as computed at source lines 286-288 on the not-all-bits-in-common
path. -/
def descDiff (st : IStore) (nw old bv L : Nat) : Int :=
  if descD st nw old bv / 8 < L then
    cmp_bits (st.keyOf nw) (st.keyOf old) (descD st nw old bv)
  else 0

/-- The side selected at source line 312. -/
def sideOf (st : IStore) (nw old : Nat) : Nat :=
  (byteAt (st.keyOf nw) ((st.nodeBit old).toNat / 8) >>> (7 - (st.nodeBit old).toNat % 8)) % 2

/-- The writes of source lines 192 and 220-223 (new key smaller: newcomer's
leaf goes to the left of the new split node). -/
def spliceNewLeft (st : IStore) (nw old : Nat) : IStore :=
  setB (setB (setLeafP (setLeafP (setNodeP st nw (st.leafP old))
    nw (some ⟨.br nw, 0⟩)) old (some ⟨.br nw, 1⟩))
    (.br nw) 0 (some ⟨.br nw, 0⟩)) (.br nw) 1 (some ⟨.br old, 0⟩)

/-- The writes of source lines 192 and 232-235 (new key not smaller: the
newcomer's leaf goes to the right). -/
def spliceNewRight (st : IStore) (nw old : Nat) : IStore :=
  setB (setB (setLeafP (setLeafP (setNodeP st nw (st.leafP old))
    old (some ⟨.br nw, 0⟩)) nw (some ⟨.br nw, 1⟩))
    (.br nw) 0 (some ⟨.br old, 0⟩)) (.br nw) 1 (some ⟨.br nw, 0⟩)

/-- The writes of source lines 280 and 290-294 (splice above a whole
subtree, newcomer on the left). -/
def spliceAboveLeft (st : IStore) (nw old : Nat) : IStore :=
  setB (setB (setNodeP (setLeafP (setNodeP st nw (st.nodeP old))
    nw (some ⟨.br nw, 0⟩)) old (some ⟨.br nw, 1⟩))
    (.br nw) 0 (some ⟨.br nw, 0⟩)) (.br nw) 1 (some ⟨.br old, 1⟩)

/-- The writes of source lines 280 and 296-300 (splice above a whole
subtree, newcomer on the right). -/
def spliceAboveRight (st : IStore) (nw old : Nat) : IStore :=
  setB (setB (setLeafP (setNodeP (setNodeP st nw (st.nodeP old))
    old (some ⟨.br nw, 0⟩)) nw (some ⟨.br nw, 1⟩))
    (.br nw) 0 (some ⟨.br old, 1⟩)) (.br nw) 1 (some ⟨.br nw, 0⟩)

/-- The writes of source lines 325-326 shared by every splice exit: store
the split bit, then hang the newcomer's node aspect off the parent slot the
descent stopped at. -/
def finishSplice (st : IStore) (nw : Nat) (rootp : EPtr) (side : Nat) (b : Int) : IStore :=
  setB (setNodeBit st nw b) rootp side (some ⟨.br nw, 1⟩)

/-- Modelled from the spec: `ebx_insert_dup` relinks inside the duplicate
group (its ordering policy is explicitly unspecified) and returns the
newcomer.  Its store effect is left untouched here; every statement below
about a rejected insertion is conditioned on the call returning a record
other than the newcomer, which this call never does. -/
def dupInsertS (st : IStore) (_old nw : Nat) : Option (IStore × Nat) :=
  some (st, nw)

/-- The descent loop of `__ebim_insert` (source lines 179-314 plus the
shared exit 316-327) over the slot store, with the tagged `troot` passed as
base and tag.  `none` models a missing link or exhausted fuel; the source
loop needs no fuel, but the pointer structure is unconstrained here. -/
def insLoopS (uniq : Bool) (nw L : Nat) :
    Nat → IStore → EPtr → Nat → EPtr → Nat → Nat → Option (IStore × Nat)
  | 0, _, _, _, _, _, _ => none
  | _ + 1, _, .rt, _, _, _, _ => none
  | fuel + 1, st, .br old, tg, rootp, side, bv =>
    if tg = 0 then
      if leafDiff st nw old bv L < 0 then
        some (finishSplice (spliceNewLeft st nw old) nw rootp side
          ((leafD st nw old bv L : Nat) : Int), nw)
      else if leafDiff st nw old bv L = 0 ∧ uniq = true then
        some (setNodeP st nw (st.leafP old), old)
      else if leafDiff st nw old bv L = 0 then
        some (finishSplice (spliceNewRight st nw old) nw rootp side (-1), nw)
      else
        some (finishSplice (spliceNewRight st nw old) nw rootp side
          ((leafD st nw old bv L : Nat) : Int), nw)
    else
      if st.nodeBit old < 0 then
        if leafDiff st nw old bv L < 0 then
          some (finishSplice (spliceAboveLeft st nw old) nw rootp side
            ((leafD st nw old bv L : Nat) : Int), nw)
        else if leafDiff st nw old bv L > 0 then
          some (finishSplice (spliceAboveRight st nw old) nw rootp side
            ((leafD st nw old bv L : Nat) : Int), nw)
        else dupInsertS (setNodeP st nw (st.nodeP old)) old nw
      else
        if (descD st nw old bv : Int) < st.nodeBit old then
          if descDiff st nw old bv L < 0 then
            some (finishSplice (spliceAboveLeft st nw old) nw rootp side
              ((descD st nw old bv : Nat) : Int), nw)
          else if descDiff st nw old bv L > 0 then
            some (finishSplice (spliceAboveRight st nw old) nw rootp side
              ((descD st nw old bv : Nat) : Int), nw)
          else dupInsertS (setNodeP st nw (st.nodeP old)) old nw
        else
          match getB st (.br old) (sideOf st nw old) with
          | none => none
          | some t2 =>
            insLoopS uniq nw L fuel st t2.base t2.tag (.br old) (sideOf st nw old)
              (descD st nw old bv)

/-- The unique-keys flag: the tag of the handle's right branch slot
(source line 155 with 228). -/
def uniqFlag (st : IStore) : Bool :=
  match st.rootB 1 with
  | some t => t.tag != 0
  | none => false

/-- `__ebim_insert` over the slot store (source lines 142-328): the
empty-tree fast path writes the handle's left slot and the newcomer's two
parent slots; otherwise the descent loop runs from the handle. -/
def ebim_insertS (st : IStore) (nw len fuel : Nat) : Option (IStore × Nat) :=
  match st.rootB 0 with
  | none =>
    some (setNodeP (setLeafP (setB st .rt 0 (some ⟨.br nw, 0⟩)) nw (some ⟨.rt, 0⟩)) nw none, nw)
  | some troot =>
    insLoopS (uniqFlag st) nw (8 * len) fuel st troot.base troot.tag .rt 0 0

/-- A concrete one-leaf unique-mode store: record 1 with key [5] is the sole
leaf, hanging off the handle's left slot; the handle's right slot carries
the unique tag. -/
def CST : IStore :=
  { rootB := fun i => if i = 0 then some ⟨.br 1, 0⟩ else some ⟨.rt, 1⟩,
    branchB := fun _ _ => none,
    nodeP := fun _ => none,
    leafP := fun j => if j = 1 then some ⟨.rt, 0⟩ else none,
    nodeBit := fun _ => 0,
    keyOf := fun j => if j = 1 then [5] else if j = 2 then [5] else [] }

/-! ### Basic lemmas about bytes, bits and the comparison primitives -/

theorem byteAt_eq_zero {k : List Nat} {i : Nat} (h : k.length ≤ i) : byteAt k i = 0 :=
  List.getD_eq_default _ _ h

theorem validK_iff {k : List Nat} : validK k = true ↔ ∀ c ∈ k, c < 256 := by
  simp [validK]

theorem byteAt_lt {k : List Nat} (h : validK k = true) (i : Nat) : byteAt k i < 256 := by
  rcases Nat.lt_or_ge i k.length with hi | hi
  · have hmem : k.getD i 0 ∈ k := by
      rw [List.getD_eq_getElem _ _ hi]
      exact List.getElem_mem hi
    exact validK_iff.mp h _ hmem
  · rw [byteAt, List.getD_eq_default _ _ hi]; omega

theorem memEq_iff {a b : List Nat} {pos n : Nat} :
    memEq a b pos n = true ↔ ∀ i < n, byteAt a (pos + i) = byteAt b (pos + i) := by
  induction n generalizing pos with
  | zero => simp [memEq]
  | succ n ih =>
    rw [memEq]
    simp only [Bool.and_eq_true, beq_iff_eq, ih]
    constructor
    · rintro ⟨h0, hs⟩ i hi
      cases i with
      | zero => simpa using h0
      | succ j =>
        have hj : j < n := by omega
        have := hs j hj
        have harith : pos + 1 + j = pos + (j + 1) := by omega
        rwa [harith] at this
    · intro h
      refine ⟨by simpa using h 0 (by omega), fun i hi => ?_⟩
      have := h (i + 1) (by omega)
      have harith : pos + (i + 1) = pos + 1 + i := by omega
      rwa [harith] at this

theorem agreeB_iff {a b : List Nat} {n : Nat} :
    agreeB a b n = true ↔ ∀ i < n, keyBit a i = keyBit b i := by
  simp [agreeB, List.all_eq_true, List.mem_range]

theorem streamEq_iff {a b : List Nat} :
    streamEq a b = true ↔ ∀ i, byteAt a i = byteAt b i := by
  constructor
  · intro h i
    rcases Nat.lt_or_ge i (max a.length b.length) with hi | hi
    · have := List.all_eq_true.mp h i (List.mem_range.mpr hi)
      simpa using this
    · rw [byteAt_eq_zero (le_trans (le_max_left _ _) hi),
          byteAt_eq_zero (le_trans (le_max_right _ _) hi)]
  · intro h
    refine List.all_eq_true.mpr (fun i _ => ?_)
    simpa using h i

theorem byte_eq_of_bits {u v : Nat} (hu : u < 256) (hv : v < 256)
    (h : ∀ r < 8, u.testBit (7 - r) = v.testBit (7 - r)) : u = v := by
  apply Nat.eq_of_testBit_eq
  intro j
  rcases Nat.lt_or_ge j 8 with hj | hj
  · have := h (7 - j) (by omega)
    have h7 : 7 - (7 - j) = j := by omega
    rwa [h7] at this
  · have h8 : (256 : Nat) ≤ 2 ^ j :=
      le_trans (by norm_num : (256 : Nat) ≤ 2 ^ 8) (Nat.pow_le_pow_right (by norm_num) hj)
    rw [Nat.testBit_eq_false_of_lt (lt_of_lt_of_le hu h8),
        Nat.testBit_eq_false_of_lt (lt_of_lt_of_le hv h8)]

theorem byteAt_eq_iff_bits {a b : List Nat} (ha : validK a = true) (hb : validK b = true)
    (q : Nat) :
    byteAt a q = byteAt b q ↔ ∀ r < 8, keyBit a (8 * q + r) = keyBit b (8 * q + r) := by
  have hdiv : ∀ r : Nat, r < 8 → (8 * q + r) / 8 = q := by intro r hr; omega
  have hmod : ∀ r : Nat, r < 8 → (8 * q + r) % 8 = r := by intro r hr; omega
  constructor
  · intro h r hr
    rw [keyBit, keyBit, hdiv r hr, hmod r hr, h]
  · intro h
    refine byte_eq_of_bits (byteAt_lt ha q) (byteAt_lt hb q) (fun r hr => ?_)
    have := h r hr
    rwa [keyBit, keyBit, hdiv r hr, hmod r hr] at this

theorem memEq_iff_agree {a b : List Nat} (ha : validK a = true) (hb : validK b = true)
    {n : Nat} :
    memEq a b 0 n = true ↔ ∀ i < 8 * n, keyBit a i = keyBit b i := by
  rw [memEq_iff]
  constructor
  · intro h i hi
    have h8 : i / 8 < n := by omega
    have hb8 : byteAt a (i / 8) = byteAt b (i / 8) := by simpa using h (i / 8) h8
    have := (byteAt_eq_iff_bits ha hb (i / 8)).mp hb8 (i % 8) (by omega)
    have hi' : 8 * (i / 8) + i % 8 = i := by omega
    rwa [hi'] at this
  · intro h i hi
    have : byteAt a i = byteAt b i :=
      (byteAt_eq_iff_bits ha hb i).mpr (fun r hr => h _ (by omega))
    simpa using this

theorem agreeB_of_streamEq {a b : List Nat} (h : streamEq a b = true) (n : Nat) :
    agreeB a b n = true := by
  refine agreeB_iff.mpr (fun i _ => ?_)
  rw [keyBit, keyBit, streamEq_iff.mp h (i / 8)]

theorem streamEq_of_agree {a b : List Nat} (ha : validK a = true) (hb : validK b = true)
    {nB : Nat} (hla : a.length ≤ nB) (hlb : b.length ≤ nB)
    (h : ∀ i < 8 * nB, keyBit a i = keyBit b i) : streamEq a b = true := by
  refine streamEq_iff.mpr (fun i => ?_)
  rcases Nat.lt_or_ge i nB with hi | hi
  · exact (byteAt_eq_iff_bits ha hb i).mpr (fun r hr => h _ (by omega))
  · rw [byteAt_eq_zero (le_trans hla hi), byteAt_eq_zero (le_trans hlb hi)]

theorem streamEq_refl (a : List Nat) : streamEq a a = true :=
  streamEq_iff.mpr (fun _ => rfl)

theorem streamEq_symm {a b : List Nat} (h : streamEq a b = true) : streamEq b a = true :=
  streamEq_iff.mpr (fun i => (streamEq_iff.mp h i).symm)

theorem streamEq_trans {a b c : List Nat} (h1 : streamEq a b = true)
    (h2 : streamEq b c = true) : streamEq a c = true :=
  streamEq_iff.mpr (fun i => (streamEq_iff.mp h1 i).trans (streamEq_iff.mp h2 i))

theorem keyBit_congr_streamEq {a b : List Nat} (h : streamEq a b = true) (i : Nat) :
    keyBit a i = keyBit b i := by
  rw [keyBit, keyBit, streamEq_iff.mp h (i / 8)]

/-! ### equal_bits and cmp_bits -/

theorem equal_bits_le (a b : List Nat) (i limit : Nat) : equal_bits a b i limit ≤ limit := by
  rw [equal_bits]
  split
  · split
    · exact equal_bits_le a b (i + 1) limit
    · omega
  · omega
termination_by limit - i

theorem equal_bits_ge (a b : List Nat) (i limit : Nat) (h : i ≤ limit) :
    i ≤ equal_bits a b i limit := by
  rw [equal_bits]
  split
  · split
    · exact le_trans (by omega) (equal_bits_ge a b (i + 1) limit (by omega))
    · omega
  · omega
termination_by limit - i

theorem equal_bits_agree (a b : List Nat) (i limit : Nat) :
    ∀ j, i ≤ j → j < equal_bits a b i limit → keyBit a j = keyBit b j := by
  intro j hij hj
  rw [equal_bits] at hj
  split at hj
  · split at hj
    next heq =>
      rcases Nat.eq_or_lt_of_le hij with rfl | hlt
      · exact beq_iff_eq.mp heq
      · exact equal_bits_agree a b (i + 1) limit j hlt hj
    next => omega
  · next hge =>
      have := equal_bits_le a b i limit
      omega
termination_by limit - i

theorem equal_bits_diff (a b : List Nat) (i limit : Nat)
    (h : equal_bits a b i limit < limit) :
    keyBit a (equal_bits a b i limit) ≠ keyBit b (equal_bits a b i limit) := by
  rw [equal_bits] at h ⊢
  split at h
  · split at h
    · next =>
      split
      · exact equal_bits_diff a b (i + 1) limit h
      · omega
    · next hne =>
      split
      · simpa using hne
      · omega
  · omega
termination_by limit - i

theorem equal_bits_eq_of_agree (a b : List Nat) {i limit : Nat}
    (h : ∀ j, i ≤ j → j < limit → keyBit a j = keyBit b j) :
    equal_bits a b i limit = limit := by
  rw [equal_bits]
  split
  · next hlt =>
    rw [if_pos (beq_iff_eq.mpr (h i le_rfl hlt))]
    exact equal_bits_eq_of_agree a b (fun j h1 h2 => h j (by omega) h2)
  · next hge => omega
termination_by limit - i

theorem cmp_bits_neg_iff {a b : List Nat} {p : Nat} :
    cmp_bits a b p < 0 ↔ keyBit a p = false ∧ keyBit b p = true := by
  rw [cmp_bits]; cases keyBit a p <;> cases keyBit b p <;> simp

theorem cmp_bits_pos_iff {a b : List Nat} {p : Nat} :
    cmp_bits a b p > 0 ↔ keyBit a p = true ∧ keyBit b p = false := by
  rw [cmp_bits]; cases keyBit a p <;> cases keyBit b p <;> simp

theorem cmp_bits_zero_iff {a b : List Nat} {p : Nat} :
    cmp_bits a b p = 0 ↔ keyBit a p = keyBit b p := by
  rw [cmp_bits]; cases keyBit a p <;> cases keyBit b p <;> simp

/-! ### Lexicographic order lemmas -/

theorem keyLeAux_of_agree {a b : List Nat} {i : Nat} (n : Nat)
    (h : ∀ j, i ≤ j → byteAt a j = byteAt b j) : keyLeAux a b i n = true := by
  induction n generalizing i with
  | zero => rfl
  | succ n ih =>
    rw [keyLeAux, if_pos (h i le_rfl)]
    exact ih (fun j hj => h j (by omega))

theorem keyLeAux_of_lt {a b : List Nat} {i n q : Nat} (hq : q < i + n) (hiq : i ≤ q)
    (hagree : ∀ j, i ≤ j → j < q → byteAt a j = byteAt b j)
    (hlt : byteAt a q < byteAt b q) :
    keyLeAux a b i n = true := by
  induction n generalizing i with
  | zero => omega
  | succ n ih =>
    rw [keyLeAux]
    rcases Nat.eq_or_lt_of_le hiq with rfl | hlt2
    · rw [if_neg (Nat.ne_of_lt hlt)]
      exact decide_eq_true hlt
    · rw [if_pos (hagree i le_rfl hlt2)]
      exact ih (by omega) (by omega) (fun j h1 h2 => hagree j (by omega) h2)

theorem keyLe_of_streamEq {a b : List Nat} (h : streamEq a b = true) : keyLe a b = true :=
  keyLeAux_of_agree _ (fun j _ => streamEq_iff.mp h j)

theorem keyLe_of_agree_bit {a b : List Nat} (ha : validK a = true) (hb : validK b = true)
    {n : Nat} (hagree : ∀ i < n, keyBit a i = keyBit b i)
    (h0 : keyBit a n = false) (h1 : keyBit b n = true) : keyLe a b = true := by
  have hagreeByte : ∀ j, j < n / 8 → byteAt a j = byteAt b j := by
    intro j hj
    exact (byteAt_eq_iff_bits ha hb j).mpr (fun r hr => hagree _ (by omega))
  have hbyte : byteAt a (n / 8) < byteAt b (n / 8) := by
    refine Nat.lt_of_testBit (7 - n % 8) h0 h1 (fun j hj => ?_)
    rcases Nat.lt_or_ge j 8 with hj8 | hj8
    · have hr : keyBit a (8 * (n / 8) + (7 - j)) = keyBit b (8 * (n / 8) + (7 - j)) :=
        hagree _ (by omega)
      have hdiv : (8 * (n / 8) + (7 - j)) / 8 = n / 8 := by omega
      have hmod : (8 * (n / 8) + (7 - j)) % 8 = 7 - j := by omega
      have h7 : 7 - (7 - j) = j := by omega
      rwa [keyBit, keyBit, hdiv, hmod, h7] at hr
    · have h8 : (256 : Nat) ≤ 2 ^ j :=
        le_trans (by norm_num : (256 : Nat) ≤ 2 ^ 8) (Nat.pow_le_pow_right (by norm_num) hj8)
      rw [Nat.testBit_eq_false_of_lt (lt_of_lt_of_le (byteAt_lt ha _) h8),
          Nat.testBit_eq_false_of_lt (lt_of_lt_of_le (byteAt_lt hb _) h8)]
  have hqlt : n / 8 < max a.length b.length := by
    by_contra hge
    push_neg at hge
    have hzero : byteAt b (n / 8) = 0 :=
      byteAt_eq_zero (le_trans (le_max_right _ _) hge)
    rw [keyBit, hzero] at h1
    simp [Nat.zero_testBit] at h1
  exact keyLeAux_of_lt (by omega) (Nat.zero_le _)
    (fun j _ h2 => hagreeByte j h2) hbyte

/-! ### Tree structure lemmas -/

theorem leavesR_ne_nil (t : Ebt) : leavesR t ≠ [] := by
  induction t with
  | leaf r => simp [leavesR]
  | node b l r rc ihl ihr => simp only [leavesR, ne_eq, List.append_eq_nil]; intro h; exact ihl h.1

theorem leavesR_eq_cons (t : Ebt) : ∃ rest, leavesR t = leftmost t :: rest := by
  induction t with
  | leaf r => exact ⟨[], rfl⟩
  | node b l r rc ihl ihr =>
    obtain ⟨rest, hrest⟩ := ihl
    exact ⟨rest ++ leavesR r, by rw [leavesR, leftmost, hrest]; rfl⟩

theorem head?_leavesR (t : Ebt) : (leavesR t).head? = some (leftmost t) := by
  obtain ⟨rest, hrest⟩ := leavesR_eq_cons t
  rw [hrest]; rfl

theorem leftmost_mem (t : Ebt) : leftmost t ∈ leavesR t := by
  obtain ⟨rest, hrest⟩ := leavesR_eq_cons t
  rw [hrest]; exact List.mem_cons_self _ _

theorem key_mem_keysT {t : Ebt} {r : Record} (h : r ∈ leavesR t) : r.key ∈ keysT t := by
  induction t with
  | leaf q => simp [leavesR] at h; simp [keysT, h]
  | node b l rr rc ihl ihr =>
    simp only [leavesR, List.mem_append] at h
    rcases h with h | h
    · simp only [keysT, List.mem_cons, List.mem_append]
      exact Or.inr (Or.inl (ihl h))
    · simp only [keysT, List.mem_cons, List.mem_append]
      exact Or.inr (Or.inr (ihr h))

theorem keysT_subset_left {b : Int} {l r : Ebt} {rc : Record} {k : List Nat}
    (h : k ∈ keysT l) : k ∈ keysT (Ebt.node b l r rc) := by
  simp only [keysT, List.mem_cons, List.mem_append]
  exact Or.inr (Or.inl h)

theorem keysT_subset_right {b : Int} {l r : Ebt} {rc : Record} {k : List Nat}
    (h : k ∈ keysT r) : k ∈ keysT (Ebt.node b l r rc) := by
  simp only [keysT, List.mem_cons, List.mem_append]
  exact Or.inr (Or.inr h)

theorem rc_mem_keysT {b : Int} {l r : Ebt} {rc : Record} :
    rc.key ∈ keysT (Ebt.node b l r rc) := by
  simp [keysT]

/-! ### Well-formedness destructors -/

theorem wf_node_parts {b : Int} {l r : Ebt} {rc : Record}
    (h : wfT (Ebt.node b l r rc) = true) :
    validK rc.key = true ∧ wfT l = true ∧ wfT r = true := by
  rw [wfT] at h
  simp only [Bool.and_eq_true] at h
  exact ⟨h.1.1.1, h.1.1.2, h.1.2⟩

theorem wf_anchor_stream {b : Int} {l r : Ebt} {rc : Record}
    (h : wfT (Ebt.node b l r rc) = true) (hb : b < 0) :
    ∀ m ∈ keysT l ++ keysT r, streamEq m rc.key = true := by
  rw [wfT] at h
  simp only [Bool.and_eq_true] at h
  have := h.2
  rw [if_pos hb] at this
  exact List.all_eq_true.mp this

theorem wf_ord_left {b : Int} {l r : Ebt} {rc : Record}
    (h : wfT (Ebt.node b l r rc) = true) (hb : ¬ b < 0) :
    ∀ m ∈ keysT l, (∀ i < b.toNat, keyBit m i = keyBit rc.key i) ∧
      keyBit m b.toNat = false := by
  rw [wfT] at h
  simp only [Bool.and_eq_true] at h
  have := h.2
  rw [if_neg hb] at this
  simp only [Bool.and_eq_true] at this
  intro m hm
  have hh := List.all_eq_true.mp this.1 m hm
  simp only [Bool.and_eq_true, beq_iff_eq] at hh
  exact ⟨agreeB_iff.mp hh.1, hh.2⟩

theorem wf_ord_right {b : Int} {l r : Ebt} {rc : Record}
    (h : wfT (Ebt.node b l r rc) = true) (hb : ¬ b < 0) :
    ∀ m ∈ keysT r, (∀ i < b.toNat, keyBit m i = keyBit rc.key i) ∧
      keyBit m b.toNat = true := by
  rw [wfT] at h
  simp only [Bool.and_eq_true] at h
  have := h.2
  rw [if_neg hb] at this
  simp only [Bool.and_eq_true] at this
  intro m hm
  have hh := List.all_eq_true.mp this.2 m hm
  simp only [Bool.and_eq_true, beq_iff_eq] at hh
  exact ⟨agreeB_iff.mp hh.1, hh.2⟩

theorem wf_valid_keys {t : Ebt} (h : wfT t = true) : ∀ k ∈ keysT t, validK k = true := by
  induction t with
  | leaf r => intro k hk; simp [keysT] at hk; subst hk; exact h
  | node b l r rc ihl ihr =>
    intro k hk
    obtain ⟨hv, hl, hr⟩ := wf_node_parts h
    simp only [keysT, List.mem_cons, List.mem_append] at hk
    rcases hk with rfl | hk | hk
    · exact hv
    · exact ihl hl k hk
    · exact ihr hr k hk

theorem wf_leaf_valid {r : Record} (h : wfT (Ebt.leaf r) = true) : validK r.key = true := h

/-! ### Characterization of the byte-skip loop -/

theorem skipBytes_none_spec {k x : List Nat} {bit : Int} :
    ∀ (rem pos : Nat), 1 ≤ rem → 8 * (pos : Int) + 7 - bit < 0 →
    skipBytes k x pos rem (8 * pos + 7 - bit) = none →
    ∃ p, pos ≤ p ∧ p < pos + rem ∧ byteAt k p ≠ byteAt x p ∧
      8 * (p : Int) + 7 < bit ∧ ∀ j, pos ≤ j → j < p → byteAt k j = byteAt x j := by
  intro rem
  induction rem with
  | zero => intro pos h1 _ _; omega
  | succ n ih =>
    intro pos h1 hnb hrun
    rw [skipBytes] at hrun
    by_cases hb : byteAt k pos = byteAt x pos
    · rw [if_neg (by simp [hb])] at hrun
      by_cases h0 : n + 1 - 1 = 0
      · rw [dif_pos h0] at hrun; exact absurd hrun (by simp)
      · rw [dif_neg h0] at hrun
        by_cases h8 : (0 : Int) ≤ 8 * pos + 7 - bit + 8
        · rw [if_pos h8] at hrun; exact absurd hrun (by simp)
        · rw [if_neg h8] at hrun
          have harg : (8 * (pos : Int) + 7 - bit) + 8 = 8 * ((pos + 1 : Nat) : Int) + 7 - bit := by
            push_cast; ring
          rw [harg] at hrun h8
          have hrem : n + 1 - 1 = n := by omega
          rw [hrem] at hrun
          obtain ⟨p, hp1, hp2, hp3, hp4, hp5⟩ := ih (pos + 1) (by omega) (by omega) hrun
          refine ⟨p, by omega, by omega, hp3, hp4, fun j hj1 hj2 => ?_⟩
          rcases Nat.eq_or_lt_of_le hj1 with rfl | hlt
          · exact hb
          · exact hp5 j hlt hj2
    · rw [if_pos (by simp [hb])] at hrun
      exact ⟨pos, le_rfl, by omega, hb, by omega, fun j hj1 hj2 => by omega⟩

theorem skipBytes_inl_spec {k x : List Nat} {bit : Int} :
    ∀ (rem pos : Nat), 1 ≤ rem → 8 * (pos : Int) + 7 - bit < 0 →
    skipBytes k x pos rem (8 * pos + 7 - bit) = some (Sum.inl ()) →
    (∀ j, pos ≤ j → j < pos + rem → byteAt k j = byteAt x j) ∧
      8 * ((pos : Int) + rem) ≤ bit := by
  intro rem
  induction rem with
  | zero => intro pos h1 _ _; omega
  | succ n ih =>
    intro pos h1 hnb hrun
    rw [skipBytes] at hrun
    by_cases hb : byteAt k pos = byteAt x pos
    · rw [if_neg (by simp [hb])] at hrun
      by_cases h0 : n + 1 - 1 = 0
      · have hn : n = 0 := by omega
        subst hn
        refine ⟨fun j hj1 hj2 => ?_, by push_cast; omega⟩
        have : j = pos := by omega
        subst this; exact hb
      · rw [dif_neg h0] at hrun
        by_cases h8 : (0 : Int) ≤ 8 * pos + 7 - bit + 8
        · rw [if_pos h8] at hrun; exact absurd hrun (by simp)
        · rw [if_neg h8] at hrun
          have harg : (8 * (pos : Int) + 7 - bit) + 8 = 8 * ((pos + 1 : Nat) : Int) + 7 - bit := by
            push_cast; ring
          rw [harg] at hrun h8
          have hrem : n + 1 - 1 = n := by omega
          rw [hrem] at hrun
          obtain ⟨ha, hbd⟩ := ih (pos + 1) (by omega) (by omega) hrun
          refine ⟨fun j hj1 hj2 => ?_, by push_cast at hbd ⊢; omega⟩
          rcases Nat.eq_or_lt_of_le hj1 with rfl | hlt
          · exact hb
          · exact ha j hlt (by omega)
    · rw [if_pos (by simp [hb])] at hrun; exact absurd hrun (by simp)

theorem skipBytes_inr_spec {k x : List Nat} {bit : Int} :
    ∀ (rem pos pos1 : Nat), 1 ≤ rem → 8 * (pos : Int) + 7 - bit < 0 →
    skipBytes k x pos rem (8 * pos + 7 - bit) = some (Sum.inr pos1) →
    pos + 1 ≤ pos1 ∧ pos1 + 1 ≤ pos + rem ∧
      (∀ j, pos ≤ j → j < pos1 → byteAt k j = byteAt x j) ∧
      (0 : Int) ≤ 8 * pos1 + 7 - bit ∧ 8 * (pos1 : Int) ≤ bit := by
  intro rem
  induction rem with
  | zero => intro pos pos1 h1 _ _; omega
  | succ n ih =>
    intro pos pos1 h1 hnb hrun
    rw [skipBytes] at hrun
    by_cases hb : byteAt k pos = byteAt x pos
    · rw [if_neg (by simp [hb])] at hrun
      by_cases h0 : n + 1 - 1 = 0
      · rw [dif_pos h0] at hrun; exact absurd hrun (by simp)
      · rw [dif_neg h0] at hrun
        by_cases h8 : (0 : Int) ≤ 8 * pos + 7 - bit + 8
        · rw [if_pos h8] at hrun
          have hp1 : pos1 = pos + 1 := by
            have := Option.some.inj hrun
            exact (Sum.inr.inj this).symm
          subst hp1
          refine ⟨le_rfl, by omega, fun j hj1 hj2 => ?_, by push_cast at h8 ⊢; omega, by omega⟩
          have : j = pos := by omega
          subst this; exact hb
        · rw [if_neg h8] at hrun
          have harg : (8 * (pos : Int) + 7 - bit) + 8 = 8 * ((pos + 1 : Nat) : Int) + 7 - bit := by
            push_cast; ring
          rw [harg] at hrun h8
          have hrem : n + 1 - 1 = n := by omega
          rw [hrem] at hrun
          obtain ⟨ha1, ha2, ha3, ha4, ha5⟩ := ih (pos + 1) pos1 (by omega) (by omega) hrun
          refine ⟨by omega, by omega, fun j hj1 hj2 => ?_, ha4, ha5⟩
          rcases Nat.eq_or_lt_of_le hj1 with rfl | hlt
          · exact hb
          · exact ha3 j hlt hj2
    · rw [if_pos (by simp [hb])] at hrun; exact absurd hrun (by simp)

/-! ### The last-byte decision test -/

theorem shiftRight_xor (u v n : Nat) : (u ^^^ v) >>> n = (u >>> n) ^^^ (v >>> n) := by
  apply Nat.eq_of_testBit_eq
  intro j
  simp [Nat.testBit_shiftRight, Nat.testBit_xor]

theorem le_one_of_testBits {z : Nat} (h : ∀ j, 1 ≤ j → z.testBit j = false) : z ≤ 1 := by
  have hz : z = z % 2 := by
    apply Nat.eq_of_testBit_eq
    intro j
    cases j with
    | zero =>
      rw [Nat.testBit_to_div_mod, Nat.testBit_to_div_mod]
      simp [Nat.mod_mod_of_dvd]
    | succ j =>
      rw [h (j + 1) (by omega)]
      symm
      refine Nat.testBit_eq_false_of_lt (lt_of_lt_of_le (Nat.mod_lt _ (by norm_num)) ?_)
      exact le_trans (by norm_num) (Nat.pow_le_pow_right (by norm_num) (by omega : 1 ≤ j + 1))
  omega

theorem xor_le_one_iff {u v : Nat} : u ^^^ v ≤ 1 ↔ u >>> 1 = v >>> 1 := by
  constructor
  · intro h
    apply Nat.eq_of_testBit_eq
    intro j
    rw [Nat.testBit_shiftRight, Nat.testBit_shiftRight]
    have hz : (u ^^^ v).testBit (1 + j) = false := by
      refine Nat.testBit_eq_false_of_lt (lt_of_le_of_lt h ?_)
      exact lt_of_lt_of_le (by norm_num) (Nat.pow_le_pow_right (by norm_num) (by omega : 1 ≤ 1 + j))
    rw [Nat.testBit_xor] at hz
    revert hz
    cases u.testBit (1 + j) <;> cases v.testBit (1 + j) <;> simp
  · intro h
    apply le_one_of_testBits
    intro j hj
    rw [Nat.testBit_xor]
    have h1 : u.testBit j = (u >>> 1).testBit (j - 1) := by
      rw [Nat.testBit_shiftRight]
      congr 1; omega
    have h2 : v.testBit j = (v >>> 1).testBit (j - 1) := by
      rw [Nat.testBit_shiftRight]
      congr 1; omega
    rw [h1, h2, h]
    cases (v >>> 1).testBit (j - 1) <;> simp

theorem xor_gt_one_iff {u v : Nat} : u ^^^ v > 1 ↔ u >>> 1 ≠ v >>> 1 := by
  rw [gt_iff_lt, ← not_le, not_iff_not]
  exact xor_le_one_iff

/-- The test on the final byte (source line 119): the shifted bytes differ by
more than their lowest bit exactly when the keys disagree at a bit position
strictly between the verified bytes and the node's bit. -/
theorem sideTest_iff {ky x : List Nat} (hk : validK ky = true) (hx : validK x = true)
    {pos1 B : Nat} (hle : 8 * pos1 ≤ B) (hge : B ≤ 8 * pos1 + 7) :
    ((byteAt ky pos1 >>> (8 * pos1 + 7 - B)) ^^^ (byteAt x pos1 >>> (8 * pos1 + 7 - B)) > 1)
      ↔ ∃ j, 8 * pos1 ≤ j ∧ j < B ∧ keyBit ky j ≠ keyBit x j := by
  rw [xor_gt_one_iff, ← Nat.shiftRight_add, ← Nat.shiftRight_add]
  constructor
  · intro hne
    by_contra hno
    push_neg at hno
    apply hne
    apply Nat.eq_of_testBit_eq
    intro t
    rw [Nat.testBit_shiftRight, Nat.testBit_shiftRight]
    rcases Nat.lt_or_ge (8 * pos1 + 7 - B + 1 + t) 8 with ht | ht
    · have hj := hno (8 * pos1 + (7 - (8 * pos1 + 7 - B + 1 + t))) (by omega) (by omega)
      rw [keyBit, keyBit] at hj
      have hdiv : (8 * pos1 + (7 - (8 * pos1 + 7 - B + 1 + t))) / 8 = pos1 := by omega
      have hmod : (8 * pos1 + (7 - (8 * pos1 + 7 - B + 1 + t))) % 8
          = 7 - (8 * pos1 + 7 - B + 1 + t) := by omega
      have h7 : 7 - (7 - (8 * pos1 + 7 - B + 1 + t)) = 8 * pos1 + 7 - B + 1 + t := by omega
      rwa [hdiv, hmod, h7] at hj
    · have h8 : (256 : Nat) ≤ 2 ^ (8 * pos1 + 7 - B + 1 + t) :=
        le_trans (by norm_num : (256 : Nat) ≤ 2 ^ 8) (Nat.pow_le_pow_right (by norm_num) ht)
      rw [Nat.testBit_eq_false_of_lt (lt_of_lt_of_le (byteAt_lt hk _) h8),
          Nat.testBit_eq_false_of_lt (lt_of_lt_of_le (byteAt_lt hx _) h8)]
  · rintro ⟨j, hj1, hj2, hjne⟩ heq
    apply hjne
    have hdiv : j / 8 = pos1 := by omega
    have hmod : j % 8 = j - 8 * pos1 := by omega
    rw [keyBit, keyBit, hdiv, hmod]
    have ht : 7 - (j - 8 * pos1)
        = 8 * pos1 + 7 - B + 1 + (7 - (j - 8 * pos1) - (8 * pos1 + 7 - B) - 1) := by omega
    rw [ht]
    have := congrArg (fun z => z.testBit (7 - (j - 8 * pos1) - (8 * pos1 + 7 - B) - 1)) heq
    simpa [Nat.testBit_shiftRight] using this

/-- The side selection (source lines 118-121): the shifted byte's low bit is
the new key's bit at the node's bit position. -/
theorem sideBit_iff {x : List Nat} {pos1 B : Nat} (hle : 8 * pos1 ≤ B)
    (hge : B ≤ 8 * pos1 + 7) :
    ((byteAt x pos1 >>> (8 * pos1 + 7 - B)) % 2 = 1) ↔ keyBit x B = true := by
  rw [keyBit]
  have hdiv : B / 8 = pos1 := by omega
  have hmod : 7 - B % 8 = 8 * pos1 + 7 - B := by omega
  rw [hdiv, hmod, Nat.testBit_to_div_mod, Nat.shiftRight_eq_div_pow]
  simp

/-- The leaf/anchor memcmp with the first `pos` bytes already verified is a
full match on the compared length. -/
theorem memEq_seg_iff {a x : List Nat} (ha : validK a = true) (hx : validK x = true)
    {pos lenB : Nat} (hpos : pos ≤ lenB)
    (hpre : ∀ i < 8 * pos, keyBit a i = keyBit x i) :
    memEq a x pos (lenB - pos) = true ↔ ∀ i < 8 * lenB, keyBit a i = keyBit x i := by
  rw [memEq_iff]
  constructor
  · intro h i hi
    rcases Nat.lt_or_ge i (8 * pos) with hip | hip
    · exact hpre i hip
    · have hbyte : byteAt a (i / 8) = byteAt x (i / 8) := by
        have := h (i / 8 - pos) (by omega)
        have harith : pos + (i / 8 - pos) = i / 8 := by omega
        rwa [harith] at this
      rw [keyBit, keyBit, hbyte]
  · intro h j hj
    exact (byteAt_eq_iff_bits ha hx (pos + j)).mpr (fun r hr => h _ (by omega))

/-- The tail of the ordinary-node case of the lookup loop: the last-byte test
followed by the side descent, assuming both children are already known to be
looked up correctly from position `pos1`. -/
theorem lookup_node_tail (x : List Nat) (lenB : Nat) (hx : validK x = true)
    {bt : Int} {l r : Ebt} {rc : Record}
    (hw : wfT (Ebt.node bt l r rc) = true) (hbneg : ¬ bt < 0)
    {pos1 : Nat} (hpos1 : pos1 < lenB)
    (hB1 : 8 * pos1 ≤ bt.toNat) (hB2 : bt.toNat ≤ 8 * pos1 + 7)
    (hagree1 : ∀ k ∈ keysT (Ebt.node bt l r rc), ∀ i < 8 * pos1, keyBit k i = keyBit x i)
    (ihl : lookupLoop x lenB l pos1 = ((leavesR l).filter (matchesB x lenB)).head?)
    (ihr : lookupLoop x lenB r pos1 = ((leavesR r).filter (matchesB x lenB)).head?) :
    (if (byteAt rc.key pos1 >>> ((8 * pos1 + 7 : Int) - bt).toNat)
          ^^^ (byteAt x pos1 >>> ((8 * pos1 + 7 : Int) - bt).toNat) > 1 then none
     else if (byteAt x pos1 >>> ((8 * pos1 + 7 : Int) - bt).toNat) % 2 == 1 then
       lookupLoop x lenB r pos1
     else lookupLoop x lenB l pos1)
    = ((leavesR (Ebt.node bt l r rc)).filter (matchesB x lenB)).head? := by
  obtain ⟨hvrc, hwl, hwr⟩ := wf_node_parts hw
  have hwleft := wf_ord_left hw hbneg
  have hwright := wf_ord_right hw hbneg
  have hBlt : bt.toNat < 8 * lenB := by omega
  have htn : ((8 * pos1 + 7 : Int) - bt).toNat = 8 * pos1 + 7 - bt.toNat := by omega
  rw [htn]
  by_cases hxor : (byteAt rc.key pos1 >>> (8 * pos1 + 7 - bt.toNat))
      ^^^ (byteAt x pos1 >>> (8 * pos1 + 7 - bt.toNat)) > 1
  · rw [if_pos hxor]
    obtain ⟨j, hj1, hj2, hjne⟩ := (sideTest_iff hvrc hx hB1 hB2).mp hxor
    have hnone : ∀ m ∈ leavesR (Ebt.node bt l r rc), ¬ matchesB x lenB m = true := by
      intro m hm hmatch
      rw [matchesB, agreeB_iff] at hmatch
      have hmj : keyBit m.key j = keyBit rc.key j := by
        rw [leavesR, List.mem_append] at hm
        rcases hm with hm | hm
        · exact (hwleft m.key (key_mem_keysT hm)).1 j hj2
        · exact (hwright m.key (key_mem_keysT hm)).1 j hj2
      exact hjne (by rw [← hmj]; exact hmatch j (by omega))
    rw [List.filter_eq_nil_iff.mpr hnone]
    rfl
  · rw [if_neg hxor]
    have hxagree : ∀ j, 8 * pos1 ≤ j → j < bt.toNat → keyBit rc.key j = keyBit x j := by
      intro j h1 h2
      by_contra hne
      exact hxor ((sideTest_iff hvrc hx hB1 hB2).mpr ⟨j, h1, h2, hne⟩)
    have hrcx : ∀ i < bt.toNat, keyBit rc.key i = keyBit x i := by
      intro i hi
      rcases Nat.lt_or_ge i (8 * pos1) with h | h
      · exact hagree1 rc.key rc_mem_keysT i h
      · exact hxagree i h hi
    by_cases hside : (byteAt x pos1 >>> (8 * pos1 + 7 - bt.toNat)) % 2 = 1
    · rw [if_pos (by simpa using hside)]
      have hxB : keyBit x bt.toNat = true := (sideBit_iff hB1 hB2).mp hside
      have hlnil : (leavesR l).filter (matchesB x lenB) = [] := by
        refine List.filter_eq_nil_iff.mpr (fun m hm hmatch => ?_)
        rw [matchesB, agreeB_iff] at hmatch
        have h0 := (hwleft m.key (key_mem_keysT hm)).2
        have := hmatch bt.toNat hBlt
        rw [h0, hxB] at this
        exact Bool.false_ne_true this
      rw [ihr, leavesR, List.filter_append, hlnil, List.nil_append]
    · rw [if_neg (by simpa using hside)]
      have hxB : keyBit x bt.toNat = false := by
        rcases Bool.eq_false_or_eq_true (keyBit x bt.toNat) with h | h
        · exact absurd ((sideBit_iff hB1 hB2).mpr h) hside
        · exact h
      have hrnil : (leavesR r).filter (matchesB x lenB) = [] := by
        refine List.filter_eq_nil_iff.mpr (fun m hm hmatch => ?_)
        rw [matchesB, agreeB_iff] at hmatch
        have h0 := (hwright m.key (key_mem_keysT hm)).2
        have := hmatch bt.toNat hBlt
        rw [h0, hxB] at this
        exact Bool.false_ne_true this.symm
      rw [ihl, leavesR, List.filter_append, hrnil, List.append_nil]

/-- Correctness of the main lookup loop on well-formed subtrees: it returns
the first in-order leaf whose key matches `x` on the compared length, given
that every key of the subtree is already known to agree with `x` on the
verified bytes. -/
theorem lookupLoop_correct (x : List Nat) (lenB : Nat) (hx : validK x = true) :
    ∀ (t : Ebt) (pos : Nat), wfT t = true → pos < lenB →
    (∀ k ∈ keysT t, ∀ i < 8 * pos, keyBit k i = keyBit x i) →
    lookupLoop x lenB t pos = ((leavesR t).filter (matchesB x lenB)).head? := by
  intro t
  induction t with
  | leaf q =>
    intro pos hw hpos hagree
    rw [lookupLoop]
    have hiff := memEq_seg_iff (wf_leaf_valid hw) hx (le_of_lt hpos)
      (hagree q.key (by simp [keysT]))
    by_cases hm : memEq q.key x pos (lenB - pos) = true
    · rw [if_pos hm]
      have hmat : matchesB x lenB q = true := by
        rw [matchesB, agreeB_iff]; exact hiff.mp hm
      simp [leavesR, List.filter, hmat]
    · rw [if_neg hm]
      have hmat : matchesB x lenB q = false := by
        rw [matchesB]
        rcases Bool.eq_false_or_eq_true (agreeB q.key x (8 * lenB)) with h | h
        · exact absurd (hiff.mpr (agreeB_iff.mp h)) hm
        · exact h
      simp [leavesR, List.filter, hmat]
  | node bt l r rc ihl ihr =>
    intro pos hw hpos hagree
    obtain ⟨hvrc, hwl, hwr⟩ := wf_node_parts hw
    have hkey : ∀ m ∈ leavesR (Ebt.node bt l r rc), m.key ∈ keysT l ++ keysT r := by
      intro m hm2
      rw [leavesR, List.mem_append] at hm2
      rw [List.mem_append]
      rcases hm2 with h | h
      · exact Or.inl (key_mem_keysT h)
      · exact Or.inr (key_mem_keysT h)
    rw [lookupLoop]
    by_cases hbneg : bt < 0
    · rw [if_pos hbneg]
      have hstream := wf_anchor_stream hw hbneg
      have hiff := memEq_seg_iff hvrc hx (le_of_lt hpos) (hagree rc.key rc_mem_keysT)
      by_cases hm : memEq rc.key x pos (lenB - pos) = true
      · rw [if_pos hm]
        have hall : ∀ m ∈ leavesR (Ebt.node bt l r rc), matchesB x lenB m = true := by
          intro m hm2
          rw [matchesB, agreeB_iff]
          intro i hi
          rw [keyBit_congr_streamEq (hstream m.key (hkey m hm2)) i]
          exact hiff.mp hm i hi
        rw [List.filter_eq_self.mpr hall, head?_leavesR]
        rfl
      · rw [if_neg hm]
        have hnone : ∀ m ∈ leavesR (Ebt.node bt l r rc), ¬ matchesB x lenB m = true := by
          intro m hm2 hmatch
          rw [matchesB, agreeB_iff] at hmatch
          apply hm
          apply hiff.mpr
          intro i hi
          rw [← keyBit_congr_streamEq (hstream m.key (hkey m hm2)) i]
          exact hmatch i hi
        rw [List.filter_eq_nil_iff.mpr hnone]
        rfl
    · rw [if_neg hbneg]
      have hwleft := wf_ord_left hw hbneg
      have hwright := wf_ord_right hw hbneg
      have hposB : 8 * pos ≤ bt.toNat := by
        by_contra hlt
        push_neg at hlt
        have hml := (hwleft (leftmost l).key (key_mem_keysT (leftmost_mem l))).2
        have hmr := (hwright (leftmost r).key (key_mem_keysT (leftmost_mem r))).2
        have h1 := hagree (leftmost l).key
          (keysT_subset_left (key_mem_keysT (leftmost_mem l))) bt.toNat (by omega)
        have h2 := hagree (leftmost r).key
          (keysT_subset_right (key_mem_keysT (leftmost_mem r))) bt.toNat (by omega)
        rw [hml] at h1
        rw [hmr] at h2
        rw [← h1] at h2
        exact Bool.false_ne_true h2.symm
    -- skip loop entered or not
      by_cases hskip : 8 * (pos : Int) + 7 - bt < 0
      · rw [if_pos hskip]
        cases hres : skipBytes rc.key x pos (lenB - pos) (8 * (pos : Int) + 7 - bt) with
        | none =>
          obtain ⟨p, hp1, hp2, hpne, hpbit, hpeq⟩ :=
            skipBytes_none_spec (lenB - pos) pos (by omega) hskip hres
          have hbits : ∃ rr, rr < 8 ∧ keyBit rc.key (8 * p + rr) ≠ keyBit x (8 * p + rr) := by
            by_contra hno
            push_neg at hno
            exact hpne ((byteAt_eq_iff_bits hvrc hx p).mpr (fun rr hrr => hno rr hrr))
          obtain ⟨rr, hrr, hrne⟩ := hbits
          have hjB : 8 * p + rr < bt.toNat := by omega
          have hjLen : 8 * p + rr < 8 * lenB := by omega
          have hnone : ∀ m ∈ leavesR (Ebt.node bt l r rc), ¬ matchesB x lenB m = true := by
            intro m hm2 hmatch
            rw [matchesB, agreeB_iff] at hmatch
            have hagr : keyBit m.key (8 * p + rr) = keyBit rc.key (8 * p + rr) := by
              rw [leavesR, List.mem_append] at hm2
              rcases hm2 with h | h
              · exact (hwleft m.key (key_mem_keysT h)).1 _ hjB
              · exact (hwright m.key (key_mem_keysT h)).1 _ hjB
            exact hrne (by rw [← hagr]; exact hmatch _ hjLen)
          rw [List.filter_eq_nil_iff.mpr hnone]
          rfl
        | some s =>
          cases s with
          | inl u =>
            obtain ⟨hall, hbound⟩ :=
              skipBytes_inl_spec (lenB - pos) pos (by omega) hskip hres
            have hbt : 8 * lenB ≤ bt.toNat := by omega
            have hrcx : ∀ i < 8 * lenB, keyBit rc.key i = keyBit x i := by
              intro i hi
              rcases Nat.lt_or_ge i (8 * pos) with h | h
              · exact hagree rc.key rc_mem_keysT i h
              · have hbyte : byteAt rc.key (i / 8) = byteAt x (i / 8) :=
                  hall (i / 8) (by omega) (by omega)
                rw [keyBit, keyBit, hbyte]
            have hallm : ∀ m ∈ leavesR (Ebt.node bt l r rc), matchesB x lenB m = true := by
              intro m hm2
              rw [matchesB, agreeB_iff]
              intro i hi
              have hagr : keyBit m.key i = keyBit rc.key i := by
                rw [leavesR, List.mem_append] at hm2
                rcases hm2 with h | h
                · exact (hwleft m.key (key_mem_keysT h)).1 i (by omega)
                · exact (hwright m.key (key_mem_keysT h)).1 i (by omega)
              rw [hagr]
              exact hrcx i hi
            rw [List.filter_eq_self.mpr hallm, head?_leavesR]
            rfl
          | inr pos1 =>
            obtain ⟨hq1, hq2, hq3, hq4, hq5⟩ :=
              skipBytes_inr_spec (lenB - pos) pos pos1 (by omega) hskip hres
            have hB1 : 8 * pos1 ≤ bt.toNat := by omega
            have hB2 : bt.toNat ≤ 8 * pos1 + 7 := by omega
            have hpos1 : pos1 < lenB := by omega
            have hrc1 : ∀ i < 8 * pos1, keyBit rc.key i = keyBit x i := by
              intro i hi
              rcases Nat.lt_or_ge i (8 * pos) with h | h
              · exact hagree rc.key rc_mem_keysT i h
              · have hbyte : byteAt rc.key (i / 8) = byteAt x (i / 8) :=
                  hq3 (i / 8) (by omega) (by omega)
                rw [keyBit, keyBit, hbyte]
            have hagree1 : ∀ k ∈ keysT (Ebt.node bt l r rc), ∀ i < 8 * pos1,
                keyBit k i = keyBit x i := by
              intro k hk i hi
              simp only [keysT, List.mem_cons, List.mem_append] at hk
              rcases hk with rfl | hk | hk
              · exact hrc1 i hi
              · rw [(hwleft k hk).1 i (by omega)]; exact hrc1 i hi
              · rw [(hwright k hk).1 i (by omega)]; exact hrc1 i hi
            exact lookup_node_tail x lenB hx hw hbneg hpos1 hB1 hB2 hagree1
              (ihl pos1 hwl hpos1 (fun k hk => hagree1 k (keysT_subset_left hk)))
              (ihr pos1 hwr hpos1 (fun k hk => hagree1 k (keysT_subset_right hk)))
      · rw [if_neg hskip]
        have hB2 : bt.toNat ≤ 8 * pos + 7 := by omega
        exact lookup_node_tail x lenB hx hw hbneg hpos hposB hB2 hagree
          (ihl pos hwl hpos (fun k hk => hagree k (keysT_subset_left hk)))
          (ihr pos hwr hpos (fun k hk => hagree k (keysT_subset_right hk)))

/-- Top-level lookup on a well-formed tree returns the leftmost (first
in-order) leaf matching on the first `8 * lenB` bits. -/
theorem ebim_lookup_eq_head (t : Ebt) (u : Bool) (x : List Nat) (lenB : Nat)
    (hw : wfT t = true) (hx : validK x = true) (hlen : 0 < lenB) :
    ebim_lookup ⟨some t, u⟩ x lenB = ((leavesR t).filter (matchesB x lenB)).head? := by
  rw [ebim_lookup]
  simp only
  rw [if_neg (by omega)]
  exact lookupLoop_correct x lenB hx t 0 hw hlen
    (fun k _ i hi => absurd hi (by omega))

/-- In a well-formed tree the in-order leaves are lexicographically sorted. -/
theorem leaves_sorted {t : Ebt} (hw : wfT t = true) :
    (leavesR t).Pairwise (fun a b => keyLe a.key b.key = true) := by
  induction t with
  | leaf q => simp [leavesR]
  | node bt l r rc ihl ihr =>
    obtain ⟨hvrc, hwl, hwr⟩ := wf_node_parts hw
    rw [leavesR, List.pairwise_append]
    refine ⟨ihl hwl, ihr hwr, ?_⟩
    intro a ha b hb
    by_cases hbneg : bt < 0
    · have hs := wf_anchor_stream hw hbneg
      have hsa := hs a.key (List.mem_append.mpr (Or.inl (key_mem_keysT ha)))
      have hsb := hs b.key (List.mem_append.mpr (Or.inr (key_mem_keysT hb)))
      exact keyLe_of_streamEq (streamEq_trans hsa (streamEq_symm hsb))
    · have hal := wf_ord_left hw hbneg a.key (key_mem_keysT ha)
      have hbr := wf_ord_right hw hbneg b.key (key_mem_keysT hb)
      have hva : validK a.key = true := wf_valid_keys hwl a.key (key_mem_keysT ha)
      have hvb : validK b.key = true := wf_valid_keys hwr b.key (key_mem_keysT hb)
      exact keyLe_of_agree_bit hva hvb
        (fun i hi => (hal.1 i hi).trans ((hbr.1 i hi).symm)) hal.2 hbr.2

/-- The leftmost leaf of a well-formed tree holds a lexicographically
smallest key. -/
theorem leftmost_min {t : Ebt} (hw : wfT t = true) :
    ∀ m ∈ leavesR t, keyLe (leftmost t).key m.key = true := by
  intro m hm
  obtain ⟨rest, hrest⟩ := leavesR_eq_cons t
  have hp := leaves_sorted hw
  rw [hrest] at hp hm
  rcases List.mem_cons.mp hm with rfl | hm2
  · exact keyLe_of_streamEq (streamEq_refl _)
  · exact (List.pairwise_cons.mp hp).1 m hm2

/-- The head of a filtered sorted list is below every element that passes the
filter. -/
theorem head_filter_le {l : List Record}
    (hp : l.Pairwise (fun a b => keyLe a.key b.key = true))
    {p : Record → Bool} {r : Record} (h : (l.filter p).head? = some r) :
    ∀ m ∈ l, p m = true → keyLe r.key m.key = true := by
  induction l with
  | nil => simp [List.filter_nil] at h
  | cons a rest ih =>
    rw [List.filter_cons] at h
    rcases List.pairwise_cons.mp hp with ⟨hale, hrest⟩
    by_cases hpa : p a = true
    · rw [if_pos hpa] at h
      have hra : r = a := by simpa using h.symm
      subst hra
      intro m hm hpm
      rcases List.mem_cons.mp hm with rfl | hm2
      · exact keyLe_of_streamEq (streamEq_refl _)
      · exact hale m hm2
    · rw [if_neg hpa] at h
      intro m hm hpm
      rcases List.mem_cons.mp hm with rfl | hm2
      · exact absurd hpm hpa
      · exact ih hrest h m hm2 hpm

/-! ### Support lemmas for the insertion analysis -/

theorem keyBit_side_iff {k : List Nat} (n : Nat) :
    ((byteAt k (n / 8) >>> (7 - n % 8)) % 2 = 1) ↔ keyBit k n = true := by
  rw [keyBit, Nat.testBit_to_div_mod, Nat.shiftRight_eq_div_pow]
  simp

theorem keyBit_beyond {k : List Nat} {n : Nat} (h : k.length ≤ n / 8) :
    keyBit k n = false := by
  rw [keyBit, byteAt_eq_zero h, Nat.zero_testBit]

theorem lowAll_mono {m n : Nat} (hmn : m ≤ n) : ∀ {t : Ebt}, lowAll n t = true →
    lowAll m t = true := by
  intro t
  induction t with
  | leaf q => intro _; rfl
  | node b l r rc ihl ihr =>
    intro h
    rw [lowAll] at h ⊢
    simp only [Bool.and_eq_true, Bool.or_eq_true, decide_eq_true_eq] at h ⊢
    refine ⟨⟨?_, ihl h.1.2⟩, ihr h.2⟩
    have := h.1.1
    omega

theorem bitsLt_node {L : Nat} {b : Int} {l r : Ebt} {rc : Record} :
    bitsLt L (Ebt.node b l r rc) = true ↔
      (b < 0 ∨ b < (L : Int)) ∧ bitsLt L l = true ∧ bitsLt L r = true := by
  rw [bitsLt]
  simp [Bool.and_eq_true, Bool.or_eq_true, and_assoc]

theorem lowAll_node {n : Nat} {b : Int} {l r : Ebt} {rc : Record} :
    lowAll n (Ebt.node b l r rc) = true ↔
      (b < 0 ∨ (n : Int) ≤ b) ∧ lowAll n l = true ∧ lowAll n r = true := by
  rw [lowAll]
  simp [Bool.and_eq_true, Bool.or_eq_true, and_assoc]

theorem lensLe_iff {n : Nat} {t : Ebt} :
    lensLe n t = true ↔ ∀ k ∈ keysT t, k.length ≤ n := by
  rw [lensLe]
  simp [List.all_eq_true]

theorem lensLe_node {n : Nat} {b : Int} {l r : Ebt} {rc : Record} :
    lensLe n (Ebt.node b l r rc) = true ↔
      rc.key.length ≤ n ∧ lensLe n l = true ∧ lensLe n r = true := by
  simp only [lensLe_iff]
  constructor
  · intro h
    exact ⟨h rc.key rc_mem_keysT, fun k hk => h k (keysT_subset_left hk),
      fun k hk => h k (keysT_subset_right hk)⟩
  · rintro ⟨h1, h2, h3⟩ k hk
    simp only [keysT, List.mem_cons, List.mem_append] at hk
    rcases hk with rfl | hk | hk
    · exact h1
    · exact h2 k hk
    · exact h3 k hk

theorem wf_node_intro_anchor {b : Int} {l r : Ebt} {rc : Record} (hb : b < 0)
    (hv : validK rc.key = true) (hl : wfT l = true) (hr : wfT r = true)
    (hs : ∀ m ∈ keysT l ++ keysT r, streamEq m rc.key = true) :
    wfT (Ebt.node b l r rc) = true := by
  rw [wfT]
  simp only [Bool.and_eq_true]
  exact ⟨⟨⟨hv, hl⟩, hr⟩, by rw [if_pos hb]; exact List.all_eq_true.mpr hs⟩

theorem wf_node_intro_ord {b : Int} {l r : Ebt} {rc : Record} (hb : ¬ b < 0)
    (hv : validK rc.key = true) (hl : wfT l = true) (hr : wfT r = true)
    (hsl : ∀ m ∈ keysT l, (∀ i < b.toNat, keyBit m i = keyBit rc.key i) ∧
      keyBit m b.toNat = false)
    (hsr : ∀ m ∈ keysT r, (∀ i < b.toNat, keyBit m i = keyBit rc.key i) ∧
      keyBit m b.toNat = true) :
    wfT (Ebt.node b l r rc) = true := by
  rw [wfT]
  simp only [Bool.and_eq_true]
  refine ⟨⟨⟨hv, hl⟩, hr⟩, ?_⟩
  rw [if_neg hb]
  simp only [Bool.and_eq_true]
  constructor
  · refine List.all_eq_true.mpr (fun m hm => ?_)
    simp only [Bool.and_eq_true, beq_iff_eq]
    exact ⟨agreeB_iff.mpr (hsl m hm).1, (hsl m hm).2⟩
  · refine List.all_eq_true.mpr (fun m hm => ?_)
    simp only [Bool.and_eq_true, beq_iff_eq]
    exact ⟨agreeB_iff.mpr (hsr m hm).1, (hsr m hm).2⟩

/-! ### Duplicate-chain insertion lemmas -/

theorem leaves_dupInsert (s : Ebt) (nw : Record) :
    leavesR (dupInsert s nw) = leavesR s ++ [nw] := by
  induction s with
  | leaf q => rfl
  | node b l r rc ihl ihr =>
    rw [dupInsert, leavesR, ihr, leavesR, List.append_assoc]

theorem keysT_dupInsert (s : Ebt) (nw : Record) :
    ∀ k ∈ keysT (dupInsert s nw), k = nw.key ∨ k ∈ keysT s := by
  induction s with
  | leaf q =>
    intro k hk
    simp only [dupInsert, keysT, List.mem_cons, List.mem_append] at hk
    rcases hk with rfl | h | h
    · right; simp [keysT]
    · right; simpa [keysT] using h
    · left; simpa [keysT] using h
  | node b l r rc ihl ihr =>
    intro k hk
    simp only [dupInsert, keysT, List.mem_cons, List.mem_append] at hk
    rcases hk with rfl | hk | hk
    · right; exact rc_mem_keysT
    · right; exact keysT_subset_left hk
    · rcases ihr k hk with h | h
      · left; exact h
      · right; exact keysT_subset_right h

theorem bitsLt_dupInsert {L : Nat} {s : Ebt} (h : bitsLt L s = true) (nw : Record) :
    bitsLt L (dupInsert s nw) = true := by
  induction s with
  | leaf q => rw [dupInsert, bitsLt]; simp [bitsLt]
  | node b l r rc ihl ihr =>
    rw [bitsLt_node] at h
    rw [dupInsert, bitsLt_node]
    exact ⟨h.1, h.2.1, ihr h.2.2⟩

theorem lowAll_dupInsert {n : Nat} {s : Ebt} (h : lowAll n s = true) (nw : Record) :
    lowAll n (dupInsert s nw) = true := by
  induction s with
  | leaf q => rw [dupInsert, lowAll]; simp [lowAll]
  | node b l r rc ihl ihr =>
    rw [lowAll_node] at h
    rw [dupInsert, lowAll_node]
    exact ⟨h.1, h.2.1, ihr h.2.2⟩

theorem wf_dupInsert {q : List Nat} {nw : Record}
    (hnw : streamEq nw.key q = true) (hv : validK nw.key = true) :
    ∀ {s : Ebt}, wfT s = true → (∀ k ∈ keysT s, streamEq k q = true) →
    wfT (dupInsert s nw) = true := by
  intro s
  induction s with
  | leaf r =>
    intro hws hall
    rw [dupInsert]
    refine wf_node_intro_anchor (by norm_num) hws hws hv ?_
    intro m hm
    have hrq : streamEq r.key q = true := hall r.key (by simp [keysT])
    simp only [keysT, List.cons_append, List.nil_append, List.mem_cons,
      List.not_mem_nil, or_false] at hm
    rcases hm with rfl | rfl
    · exact streamEq_refl _
    · exact streamEq_trans hnw (streamEq_symm hrq)
  | node b l r rc ihl ihr =>
    intro hws hall
    obtain ⟨hvrc, hwl, hwr⟩ := wf_node_parts hws
    by_cases hb : b < 0
    · have hanchor := wf_anchor_stream hws hb
      rw [dupInsert]
      refine wf_node_intro_anchor hb hvrc hwl
        (ihr hwr (fun k hk => hall k (keysT_subset_right hk))) ?_
      intro m hm
      rw [List.mem_append] at hm
      rcases hm with hm | hm
      · exact hanchor m (List.mem_append.mpr (Or.inl hm))
      · rcases keysT_dupInsert r nw m hm with rfl | hm2
        · have hrcq : streamEq rc.key q = true := hall rc.key rc_mem_keysT
          exact streamEq_trans hnw (streamEq_symm hrcq)
        · exact hanchor m (List.mem_append.mpr (Or.inr hm2))
    · exfalso
      have h1 := (wf_ord_left hws hb (leftmost l).key (key_mem_keysT (leftmost_mem l))).2
      have h2 := (wf_ord_right hws hb (leftmost r).key (key_mem_keysT (leftmost_mem r))).2
      have hs1 : streamEq (leftmost l).key q = true :=
        hall _ (keysT_subset_left (key_mem_keysT (leftmost_mem l)))
      have hs2 : streamEq (leftmost r).key q = true :=
        hall _ (keysT_subset_right (key_mem_keysT (leftmost_mem r)))
      have : keyBit (leftmost l).key b.toNat = keyBit (leftmost r).key b.toNat := by
        rw [keyBit_congr_streamEq hs1, keyBit_congr_streamEq hs2]
      rw [h1, h2] at this
      exact Bool.false_ne_true this

/-! ### Derived bit-ordering facts about well-formed trees -/

theorem wf_ord_all {b : Int} {l r : Ebt} {rc : Record}
    (hw : wfT (Ebt.node b l r rc) = true) (hb : ¬ b < 0) :
    ∀ m ∈ keysT (Ebt.node b l r rc), ∀ i < b.toNat, keyBit m i = keyBit rc.key i := by
  intro m hm
  simp only [keysT, List.mem_cons, List.mem_append] at hm
  rcases hm with rfl | hm | hm
  · intro i _; rfl
  · exact (wf_ord_left hw hb m hm).1
  · exact (wf_ord_right hw hb m hm).1

theorem wf_anchor_all {b : Int} {l r : Ebt} {rc : Record}
    (hw : wfT (Ebt.node b l r rc) = true) (hb : b < 0) :
    ∀ m ∈ keysT (Ebt.node b l r rc), streamEq m rc.key = true := by
  intro m hm
  simp only [keysT, List.mem_cons, List.mem_append] at hm
  rcases hm with rfl | hm | hm
  · exact streamEq_refl _
  · exact wf_anchor_stream hw hb m (List.mem_append.mpr (Or.inl hm))
  · exact wf_anchor_stream hw hb m (List.mem_append.mpr (Or.inr hm))

theorem lowAll_of_agree : ∀ {s : Ebt}, wfT s = true → ∀ {n : Nat},
    (∀ a ∈ keysT s, ∀ b ∈ keysT s, ∀ i ≤ n, keyBit a i = keyBit b i) →
    lowAll (n + 1) s = true := by
  intro s
  induction s with
  | leaf q => intro _ n _; rfl
  | node b l r rc ihl ihr =>
    intro hw n h
    obtain ⟨hvrc, hwl, hwr⟩ := wf_node_parts hw
    rw [lowAll_node]
    refine ⟨?_, ihl hwl (fun a ha b hb i hi =>
        h a (keysT_subset_left ha) b (keysT_subset_left hb) i hi),
      ihr hwr (fun a ha b hb i hi =>
        h a (keysT_subset_right ha) b (keysT_subset_right hb) i hi)⟩
    by_cases hbneg : b < 0
    · exact Or.inl hbneg
    · right
      by_contra hc
      push_neg at hc
      have hbn : b.toNat ≤ n := by omega
      have h1 := (wf_ord_left hw hbneg (leftmost l).key (key_mem_keysT (leftmost_mem l))).2
      have h2 := (wf_ord_right hw hbneg (leftmost r).key (key_mem_keysT (leftmost_mem r))).2
      have := h (leftmost l).key (keysT_subset_left (key_mem_keysT (leftmost_mem l)))
        (leftmost r).key (keysT_subset_right (key_mem_keysT (leftmost_mem r))) b.toNat hbn
      rw [h1, h2] at this
      exact Bool.false_ne_true this

theorem wf_child_lowAll {b : Int} {l r : Ebt} {rc : Record}
    (hw : wfT (Ebt.node b l r rc) = true) (hb : ¬ b < 0) :
    lowAll (b.toNat + 1) l = true ∧ lowAll (b.toNat + 1) r = true := by
  obtain ⟨hvrc, hwl, hwr⟩ := wf_node_parts hw
  constructor
  · refine lowAll_of_agree hwl (fun a ha c hc i hi => ?_)
    rcases Nat.eq_or_lt_of_le hi with rfl | hlt
    · rw [(wf_ord_left hw hb a ha).2, (wf_ord_left hw hb c hc).2]
    · rw [(wf_ord_left hw hb a ha).1 i hlt, (wf_ord_left hw hb c hc).1 i hlt]
  · refine lowAll_of_agree hwr (fun a ha c hc i hi => ?_)
    rcases Nat.eq_or_lt_of_le hi with rfl | hlt
    · rw [(wf_ord_right hw hb a ha).2, (wf_ord_right hw hb c hc).2]
    · rw [(wf_ord_right hw hb a ha).1 i hlt, (wf_ord_right hw hb c hc).1 i hlt]

theorem wf_strictInc : ∀ {t : Ebt}, wfT t = true → strictInc t = true := by
  intro t
  induction t with
  | leaf q => intro _; rfl
  | node b l r rc ihl ihr =>
    intro hw
    obtain ⟨hvrc, hwl, hwr⟩ := wf_node_parts hw
    rw [strictInc]
    simp only [Bool.and_eq_true]
    refine ⟨⟨?_, ihl hwl⟩, ihr hwr⟩
    by_cases hbneg : b < 0
    · rw [if_neg (by omega)]
    · rw [if_pos (by omega)]
      simp only [Bool.and_eq_true]
      exact wf_child_lowAll hw hbneg

theorem wf_splitFD : ∀ {t : Ebt}, wfT t = true → splitFD t = true := by
  intro t
  induction t with
  | leaf q => intro _; rfl
  | node b l r rc ihl ihr =>
    intro hw
    obtain ⟨hvrc, hwl, hwr⟩ := wf_node_parts hw
    rw [splitFD]
    simp only [Bool.and_eq_true]
    refine ⟨⟨?_, ihl hwl⟩, ihr hwr⟩
    by_cases hbneg : b < 0
    · rw [if_neg (by omega)]
    · rw [if_pos (by omega)]
      refine List.all_eq_true.mpr (fun kl hkl => List.all_eq_true.mpr (fun kr hkr => ?_))
      simp only [beq_iff_eq]
      have hl := wf_ord_left hw hbneg kl hkl
      have hr := wf_ord_right hw hbneg kr hkr
      have hagree : ∀ j, 0 ≤ j → j < b.toNat → keyBit kl j = keyBit kr j := by
        intro j _ hj
        rw [(hl.1 j hj), (hr.1 j hj)]
      have hd := equal_bits_le kl kr 0 (b.toNat + 1)
      have hge : b.toNat ≤ equal_bits kl kr 0 (b.toNat + 1) := by
        by_contra hc
        push_neg at hc
        exact equal_bits_diff kl kr 0 (b.toNat + 1) (by omega)
          (hagree _ (Nat.zero_le _) hc)
      rcases Nat.eq_or_lt_of_le hge with h | h
      · exact h.symm
      · exfalso
        have := equal_bits_agree kl kr 0 (b.toNat + 1) b.toNat (Nat.zero_le _) (by omega)
        rw [hl.2, hr.2] at this
        exact Bool.false_ne_true this

/-! ### Splice construction lemmas -/

theorem splice_left_parts {lenB : Nat} {nw : Record}
    (hvn : validK nw.key = true) (hlnw : nw.key.length ≤ lenB)
    {t : Ebt} {bv d : Nat}
    (hw : wfT t = true) (hlens : lensLe lenB t = true)
    (hblt : bitsLt (8 * lenB) t = true) (hlow : lowAll bv t = true)
    (hdlt : d < 8 * lenB) (hdge : bv ≤ d)
    (hag : ∀ m ∈ keysT t, ∀ i < d, keyBit nw.key i = keyBit m i)
    (hbitnw : keyBit nw.key d = false) (hbit : ∀ m ∈ keysT t, keyBit m d = true) :
    wfT (Ebt.node (d : Int) (.leaf nw) t nw) = true ∧
    lensLe lenB (Ebt.node (d : Int) (.leaf nw) t nw) = true ∧
    bitsLt (8 * lenB) (Ebt.node (d : Int) (.leaf nw) t nw) = true ∧
    lowAll bv (Ebt.node (d : Int) (.leaf nw) t nw) = true ∧
    (∀ k ∈ keysT (Ebt.node (d : Int) (.leaf nw) t nw), k = nw.key ∨ k ∈ keysT t) := by
  have htn : ((d : Int)).toNat = d := by omega
  refine ⟨?_, ?_, ?_, ?_, ?_⟩
  · refine wf_node_intro_ord (by omega) hvn hvn hw ?_ ?_
    · intro m hm
      simp only [keysT, List.mem_cons, List.not_mem_nil, or_false] at hm
      subst hm
      rw [htn]
      exact ⟨fun i _ => rfl, hbitnw⟩
    · intro m hm
      rw [htn]
      exact ⟨fun i hi => (hag m hm i hi).symm, hbit m hm⟩
  · rw [lensLe_node]
    refine ⟨hlnw, ?_, hlens⟩
    rw [lensLe_iff]
    intro k hk
    simp only [keysT, List.mem_singleton] at hk
    subst hk
    exact hlnw
  · rw [bitsLt_node]
    exact ⟨Or.inr (by omega), rfl, hblt⟩
  · rw [lowAll_node]
    exact ⟨Or.inr (by omega), rfl, hlow⟩
  · intro k hk
    rw [keysT, List.mem_cons, List.mem_append] at hk
    rcases hk with rfl | hk | hk
    · exact Or.inl rfl
    · rw [keysT, List.mem_singleton] at hk
      exact Or.inl hk
    · exact Or.inr hk

theorem splice_right_parts {lenB : Nat} {nw : Record}
    (hvn : validK nw.key = true) (hlnw : nw.key.length ≤ lenB)
    {t : Ebt} {bv d : Nat}
    (hw : wfT t = true) (hlens : lensLe lenB t = true)
    (hblt : bitsLt (8 * lenB) t = true) (hlow : lowAll bv t = true)
    (hdlt : d < 8 * lenB) (hdge : bv ≤ d)
    (hag : ∀ m ∈ keysT t, ∀ i < d, keyBit nw.key i = keyBit m i)
    (hbitnw : keyBit nw.key d = true) (hbit : ∀ m ∈ keysT t, keyBit m d = false) :
    wfT (Ebt.node (d : Int) t (.leaf nw) nw) = true ∧
    lensLe lenB (Ebt.node (d : Int) t (.leaf nw) nw) = true ∧
    bitsLt (8 * lenB) (Ebt.node (d : Int) t (.leaf nw) nw) = true ∧
    lowAll bv (Ebt.node (d : Int) t (.leaf nw) nw) = true ∧
    (∀ k ∈ keysT (Ebt.node (d : Int) t (.leaf nw) nw), k = nw.key ∨ k ∈ keysT t) := by
  have htn : ((d : Int)).toNat = d := by omega
  refine ⟨?_, ?_, ?_, ?_, ?_⟩
  · refine wf_node_intro_ord (by omega) hvn hw hvn ?_ ?_
    · intro m hm
      rw [htn]
      exact ⟨fun i hi => (hag m hm i hi).symm, hbit m hm⟩
    · intro m hm
      simp only [keysT, List.mem_cons, List.not_mem_nil, or_false] at hm
      subst hm
      rw [htn]
      exact ⟨fun i _ => rfl, hbitnw⟩
  · rw [lensLe_node]
    refine ⟨hlnw, hlens, ?_⟩
    rw [lensLe_iff]
    intro k hk
    simp only [keysT, List.mem_singleton] at hk
    subst hk
    exact hlnw
  · rw [bitsLt_node]
    exact ⟨Or.inr (by omega), hblt, rfl⟩
  · rw [lowAll_node]
    exact ⟨Or.inr (by omega), hlow, rfl⟩
  · intro k hk
    rw [keysT, List.mem_cons, List.mem_append] at hk
    rcases hk with rfl | hk | hk
    · exact Or.inl rfl
    · exact Or.inr hk
    · rw [keysT, List.mem_singleton] at hk
      exact Or.inl hk

/-! ### Outcome lifting through a descended node -/

theorem insOutcome_lift_right {lenB : Nat} {uniq : Bool} {nw : Record}
    {ob : Int} {l r t1 : Ebt} {rc ret : Record}
    (ho : InsOutcome lenB uniq nw r t1 ret)
    (hnomatchL : ∀ m ∈ leavesR l, ∃ i, i < 8 * lenB ∧ keyBit nw.key i ≠ keyBit m.key i) :
    InsOutcome lenB uniq nw (Ebt.node ob l r rc) (Ebt.node ob l t1 rc) ret := by
  rcases ho with ⟨hu, ht, hret, hmat⟩ | ⟨hu, hret, p, old, hsub, hmat, hrep⟩ |
    ⟨hret, p, b2, l2, r2, rc2, hsub, hb2, hmat, hrep⟩ | ⟨hret, hnm, p, s, dd, hsub, hrep⟩
  · refine Or.inl ⟨hu, by rw [ht], ?_, hmat⟩
    rw [leavesR, List.mem_append]
    exact Or.inr hret
  · refine Or.inr (Or.inl ⟨hu, hret, true :: p, old, ?_, hmat, ?_⟩)
    · simpa [subtreeAt] using hsub
    · rw [hrep]; simp [replaceAt]
  · refine Or.inr (Or.inr (Or.inl ⟨hret, true :: p, b2, l2, r2, rc2, ?_, hb2, hmat, ?_⟩))
    · simpa [subtreeAt] using hsub
    · rw [hrep]; simp [replaceAt]
  · refine Or.inr (Or.inr (Or.inr ⟨hret, ?_, true :: p, s, dd, ?_, ?_⟩))
    · intro m hm
      rw [leavesR, List.mem_append] at hm
      rcases hm with hm | hm
      · exact hnomatchL m hm
      · exact hnm m hm
    · simpa [subtreeAt] using hsub
    · rcases hrep with h | h
      · exact Or.inl (by rw [h]; simp [replaceAt])
      · exact Or.inr (by rw [h]; simp [replaceAt])

theorem insOutcome_lift_left {lenB : Nat} {uniq : Bool} {nw : Record}
    {ob : Int} {l r t1 : Ebt} {rc ret : Record}
    (ho : InsOutcome lenB uniq nw l t1 ret)
    (hnomatchR : ∀ m ∈ leavesR r, ∃ i, i < 8 * lenB ∧ keyBit nw.key i ≠ keyBit m.key i) :
    InsOutcome lenB uniq nw (Ebt.node ob l r rc) (Ebt.node ob t1 r rc) ret := by
  rcases ho with ⟨hu, ht, hret, hmat⟩ | ⟨hu, hret, p, old, hsub, hmat, hrep⟩ |
    ⟨hret, p, b2, l2, r2, rc2, hsub, hb2, hmat, hrep⟩ | ⟨hret, hnm, p, s, dd, hsub, hrep⟩
  · refine Or.inl ⟨hu, by rw [ht], ?_, hmat⟩
    rw [leavesR, List.mem_append]
    exact Or.inl hret
  · refine Or.inr (Or.inl ⟨hu, hret, false :: p, old, ?_, hmat, ?_⟩)
    · simpa [subtreeAt] using hsub
    · rw [hrep]; simp [replaceAt]
  · refine Or.inr (Or.inr (Or.inl ⟨hret, false :: p, b2, l2, r2, rc2, ?_, hb2, hmat, ?_⟩))
    · simpa [subtreeAt] using hsub
    · rw [hrep]; simp [replaceAt]
  · refine Or.inr (Or.inr (Or.inr ⟨hret, ?_, false :: p, s, dd, ?_, ?_⟩))
    · intro m hm
      rw [leavesR, List.mem_append] at hm
      rcases hm with hm | hm
      · exact hnm m hm
      · exact hnomatchR m hm
    · simpa [subtreeAt] using hsub
    · rcases hrep with h | h
      · exact Or.inl (by rw [h]; simp [replaceAt])
      · exact Or.inr (by rw [h]; simp [replaceAt])

/-- Master lemma for `__ebim_insert`'s descent loop under the uniform-length
regime (all keys fit within the compared length): the result stays
well-formed, keeps lengths and split-bit bounds, adds at most the new key,
and the call's outcome is one of rejection, first-duplicate anchor splice,
duplicate-chain hand-off, or ordinary splice with no match present. -/
theorem insLoop_spec (lenB : Nat) (uniq : Bool) (nw : Record)
    (hlen0 : 0 < lenB) (hvn : validK nw.key = true) (hlnw : nw.key.length ≤ lenB) :
    ∀ (t : Ebt) (bv : Nat),
    wfT t = true → lensLe lenB t = true → bitsLt (8 * lenB) t = true →
    lowAll bv t = true → bv ≤ 8 * lenB →
    (∀ k ∈ keysT t, ∀ i < bv, keyBit nw.key i = keyBit k i) →
    wfT (insLoop (8 * lenB) uniq nw t bv).1 = true ∧
    lensLe lenB (insLoop (8 * lenB) uniq nw t bv).1 = true ∧
    bitsLt (8 * lenB) (insLoop (8 * lenB) uniq nw t bv).1 = true ∧
    lowAll bv (insLoop (8 * lenB) uniq nw t bv).1 = true ∧
    (∀ k ∈ keysT (insLoop (8 * lenB) uniq nw t bv).1, k = nw.key ∨ k ∈ keysT t) ∧
    InsOutcome lenB uniq nw t (insLoop (8 * lenB) uniq nw t bv).1
      (insLoop (8 * lenB) uniq nw t bv).2 := by
  intro t
  induction t with
  | leaf old =>
    intro bv hw hlens hblt hlow hbv hinv
    have hvold : validK old.key = true := hw
    have hlold : old.key.length ≤ lenB := lensLe_iff.mp hlens old.key (by simp [keysT])
    set d := equal_bits nw.key old.key bv (8 * lenB) with hd
    have hdle : d ≤ 8 * lenB := equal_bits_le _ _ _ _
    have hdge : bv ≤ d := equal_bits_ge _ _ _ _ hbv
    have hagree_d : ∀ i < d, keyBit nw.key i = keyBit old.key i := by
      intro i hi
      rcases Nat.lt_or_ge i bv with h | h
      · exact hinv old.key (by simp [keysT]) i h
      · exact equal_bits_agree _ _ _ _ i h hi
    have hguard : d / 8 < 8 * lenB := by omega
    rcases Nat.lt_or_ge d (8 * lenB) with hdlt | hdeq
    · -- a genuine difference inside the compared length: ordinary splice
      have hne := equal_bits_diff nw.key old.key bv (8 * lenB) hdlt
      cases hbw : keyBit nw.key d with
      | false =>
        have hbo : keyBit old.key d = true := by
          rcases Bool.eq_false_or_eq_true (keyBit old.key d) with h | h
          · exact h
          · rw [hbw, h] at hne; exact absurd rfl hne
        have hcmp : cmp_bits nw.key old.key d < 0 := cmp_bits_neg_iff.mpr ⟨hbw, hbo⟩
        have hstep : insLoop (8 * lenB) uniq nw (.leaf old) bv
            = (.node (d : Int) (.leaf nw) (.leaf old) nw, nw) := by
          simp only [insLoop, ← hd]
          rw [if_pos hguard, if_pos hcmp]
        rw [hstep]
        have hag : ∀ m ∈ keysT (Ebt.leaf old), ∀ i < d, keyBit nw.key i = keyBit m i := by
          intro m hm
          simp only [keysT, List.mem_singleton] at hm
          subst hm
          exact hagree_d
        have hbit : ∀ m ∈ keysT (Ebt.leaf old), keyBit m d = true := by
          intro m hm
          simp only [keysT, List.mem_singleton] at hm
          subst hm
          exact hbo
        obtain ⟨g1, g2, g3, g4, g5⟩ :=
          splice_left_parts hvn hlnw hw hlens hblt hlow hdlt hdge hag hbw hbit
        refine ⟨g1, g2, g3, g4, g5, ?_⟩
        refine Or.inr (Or.inr (Or.inr ⟨rfl, ?_, [], .leaf old, d, rfl, Or.inl rfl⟩))
        intro m hm
        simp only [leavesR, List.mem_singleton] at hm
        subst hm
        exact ⟨d, hdlt, by rw [hbw, hbo]; simp⟩
      | true =>
        have hbo : keyBit old.key d = false := by
          rcases Bool.eq_false_or_eq_true (keyBit old.key d) with h | h
          · rw [hbw, h] at hne; exact absurd rfl hne
          · exact h
        have hcmp : cmp_bits nw.key old.key d > 0 := cmp_bits_pos_iff.mpr ⟨hbw, hbo⟩
        have hstep : insLoop (8 * lenB) uniq nw (.leaf old) bv
            = (.node (d : Int) (.leaf old) (.leaf nw) nw, nw) := by
          have hcb : ¬ ((decide (cmp_bits nw.key old.key d = 0) && uniq) = true) := by
            simp only [Bool.and_eq_true, decide_eq_true_eq]
            rintro ⟨h, _⟩
            omega
          simp only [insLoop, ← hd]
          rw [if_pos hguard, if_neg (by omega : ¬ cmp_bits nw.key old.key d < 0),
            if_neg hcb, if_neg (by omega : ¬ cmp_bits nw.key old.key d = 0)]
        rw [hstep]
        have hag : ∀ m ∈ keysT (Ebt.leaf old), ∀ i < d, keyBit nw.key i = keyBit m i := by
          intro m hm
          simp only [keysT, List.mem_singleton] at hm
          subst hm
          exact hagree_d
        have hbit : ∀ m ∈ keysT (Ebt.leaf old), keyBit m d = false := by
          intro m hm
          simp only [keysT, List.mem_singleton] at hm
          subst hm
          exact hbo
        obtain ⟨g1, g2, g3, g4, g5⟩ :=
          splice_right_parts hvn hlnw hw hlens hblt hlow hdlt hdge hag hbw hbit
        refine ⟨g1, g2, g3, g4, g5, ?_⟩
        refine Or.inr (Or.inr (Or.inr ⟨rfl, ?_, [], .leaf old, d, rfl, Or.inr rfl⟩))
        intro m hm
        simp only [leavesR, List.mem_singleton] at hm
        subst hm
        exact ⟨d, hdlt, by rw [hbw, hbo]; simp⟩
    · -- the keys agree on the whole compared length: duplicate handling
      have hdeq' : d = 8 * lenB := le_antisymm hdle hdeq
      have hb1 : keyBit nw.key d = false := keyBit_beyond (by omega)
      have hb2 : keyBit old.key d = false := keyBit_beyond (by omega)
      have hcmpeq : cmp_bits nw.key old.key d = 0 := by
        rw [cmp_bits, hb1, hb2]; norm_num
      have hmatch : MatchL lenB nw.key old.key := fun i hi => hagree_d i (by omega)
      by_cases huniq : uniq = true
      · have hstep : insLoop (8 * lenB) uniq nw (.leaf old) bv = (.leaf old, old) := by
          simp only [insLoop, ← hd]
          rw [if_pos hguard, hcmpeq, huniq]
          norm_num
        rw [hstep]
        refine ⟨hw, hlens, hblt, hlow, fun k hk => Or.inr hk, ?_⟩
        exact Or.inl ⟨huniq, rfl, by simp [leavesR], hmatch⟩
      · have huniqF : uniq = false := by simpa using huniq
        have hstep : insLoop (8 * lenB) uniq nw (.leaf old) bv
            = (.node (-1) (.leaf old) (.leaf nw) nw, nw) := by
          simp only [insLoop, ← hd]
          rw [if_pos hguard, hcmpeq, huniqF]
          norm_num
        rw [hstep]
        have hstream : streamEq old.key nw.key = true :=
          streamEq_of_agree hvold hvn hlold hlnw
            (fun i hi => (hmatch i hi).symm)
        refine ⟨?_, ?_, ?_, ?_, ?_, ?_⟩
        · refine wf_node_intro_anchor (by norm_num) hvn hvold hvn ?_
          intro m hm
          simp only [keysT, List.cons_append, List.nil_append, List.mem_cons,
            List.not_mem_nil, or_false] at hm
          rcases hm with rfl | rfl
          · exact hstream
          · exact streamEq_refl _
        · rw [lensLe_node]
          refine ⟨hlnw, hlens, ?_⟩
          rw [lensLe_iff]
          intro k hk
          simp only [keysT, List.mem_singleton] at hk
          subst hk
          exact hlnw
        · rw [bitsLt_node]
          exact ⟨Or.inl (by norm_num), hblt, rfl⟩
        · rw [lowAll_node]
          exact ⟨Or.inl (by norm_num), hlow, rfl⟩
        · intro k hk
          rw [keysT, List.mem_cons, List.mem_append] at hk
          rcases hk with rfl | hk | hk
          · exact Or.inl rfl
          · exact Or.inr hk
          · rw [keysT, List.mem_singleton] at hk
            exact Or.inl hk
        · exact Or.inr (Or.inl ⟨huniqF, rfl, [], old, rfl, hmatch, rfl⟩)
  | node ob l r rc ihl ihr =>
    intro bv hw hlens hblt hlow hbv hinv
    obtain ⟨hvrc, hwl, hwr⟩ := wf_node_parts hw
    obtain ⟨hlrc, hlensl, hlensr⟩ := lensLe_node.mp hlens
    obtain ⟨hbcond, hbltl, hbltr⟩ := bitsLt_node.mp hblt
    obtain ⟨hlcond, hlowl, hlowr⟩ := lowAll_node.mp hlow
    by_cases hobneg : ob < 0
    · -- above a duplicate tree
      have hanchor := wf_anchor_all hw hobneg
      set d := equal_bits nw.key rc.key bv (8 * lenB) with hd
      have hdle : d ≤ 8 * lenB := equal_bits_le _ _ _ _
      have hdge : bv ≤ d := equal_bits_ge _ _ _ _ hbv
      have hagree_d : ∀ i < d, keyBit nw.key i = keyBit rc.key i := by
        intro i hi
        rcases Nat.lt_or_ge i bv with h | h
        · exact hinv rc.key rc_mem_keysT i h
        · exact equal_bits_agree _ _ _ _ i h hi
      have hguard : d / 8 < 8 * lenB := by omega
      rcases Nat.lt_or_ge d (8 * lenB) with hdlt | hdeq
      · -- splice an ordinary node above the whole duplicate tree
        have hne := equal_bits_diff nw.key rc.key bv (8 * lenB) hdlt
        have hag : ∀ m ∈ keysT (Ebt.node ob l r rc), ∀ i < d,
            keyBit nw.key i = keyBit m i := by
          intro m hm i hi
          rw [keyBit_congr_streamEq (hanchor m hm) i]
          exact hagree_d i hi
        cases hbw : keyBit nw.key d with
        | false =>
          have hbo : keyBit rc.key d = true := by
            rcases Bool.eq_false_or_eq_true (keyBit rc.key d) with h | h
            · exact h
            · rw [hbw, h] at hne; exact absurd rfl hne
          have hcmp : cmp_bits nw.key rc.key d < 0 := cmp_bits_neg_iff.mpr ⟨hbw, hbo⟩
          have hstep : insLoop (8 * lenB) uniq nw (.node ob l r rc) bv
              = (.node (d : Int) (.leaf nw) (.node ob l r rc) nw, nw) := by
            simp only [insLoop, ← hd]
            rw [if_pos hobneg, if_pos hguard, if_pos hcmp]
          rw [hstep]
          have hbit : ∀ m ∈ keysT (Ebt.node ob l r rc), keyBit m d = true := by
            intro m hm
            rw [keyBit_congr_streamEq (hanchor m hm) d]
            exact hbo
          obtain ⟨g1, g2, g3, g4, g5⟩ :=
            splice_left_parts hvn hlnw hw hlens hblt hlow hdlt hdge hag hbw hbit
          refine ⟨g1, g2, g3, g4, g5, ?_⟩
          refine Or.inr (Or.inr (Or.inr ⟨rfl, ?_, [], .node ob l r rc, d, rfl, Or.inl rfl⟩))
          intro m hm
          refine ⟨d, hdlt, ?_⟩
          rw [hbw, hbit m.key (key_mem_keysT hm)]
          simp
        | true =>
          have hbo : keyBit rc.key d = false := by
            rcases Bool.eq_false_or_eq_true (keyBit rc.key d) with h | h
            · rw [hbw, h] at hne; exact absurd rfl hne
            · exact h
          have hcmp : cmp_bits nw.key rc.key d > 0 := cmp_bits_pos_iff.mpr ⟨hbw, hbo⟩
          have hstep : insLoop (8 * lenB) uniq nw (.node ob l r rc) bv
              = (.node (d : Int) (.node ob l r rc) (.leaf nw) nw, nw) := by
            simp only [insLoop, ← hd]
            rw [if_pos hobneg, if_pos hguard,
              if_neg (by omega : ¬ cmp_bits nw.key rc.key d < 0), if_pos hcmp]
          rw [hstep]
          have hbit : ∀ m ∈ keysT (Ebt.node ob l r rc), keyBit m d = false := by
            intro m hm
            rw [keyBit_congr_streamEq (hanchor m hm) d]
            exact hbo
          obtain ⟨g1, g2, g3, g4, g5⟩ :=
            splice_right_parts hvn hlnw hw hlens hblt hlow hdlt hdge hag hbw hbit
          refine ⟨g1, g2, g3, g4, g5, ?_⟩
          refine Or.inr (Or.inr (Or.inr ⟨rfl, ?_, [], .node ob l r rc, d, rfl, Or.inr rfl⟩))
          intro m hm
          refine ⟨d, hdlt, ?_⟩
          rw [hbw, hbit m.key (key_mem_keysT hm)]
          simp
      · -- the new key matches the group: duplicate-chain hand-off
        have hdeq' : d = 8 * lenB := le_antisymm hdle hdeq
        have hb1 : keyBit nw.key d = false := keyBit_beyond (by omega)
        have hb2 : keyBit rc.key d = false := keyBit_beyond (by omega)
        have hcmpeq : cmp_bits nw.key rc.key d = 0 := by
          rw [cmp_bits, hb1, hb2]; norm_num
        have hmatch : MatchL lenB nw.key rc.key := fun i hi => hagree_d i (by omega)
        have hstream : streamEq nw.key rc.key = true :=
          streamEq_of_agree hvn hvrc hlnw hlrc hmatch
        have hstep : insLoop (8 * lenB) uniq nw (.node ob l r rc) bv
            = (dupInsert (.node ob l r rc) nw, nw) := by
          simp only [insLoop, ← hd]
          rw [if_pos hobneg, if_pos hguard, hcmpeq]
          norm_num
        rw [hstep]
        refine ⟨wf_dupInsert hstream hvn hw hanchor, ?_, bitsLt_dupInsert hblt nw,
          lowAll_dupInsert hlow nw, keysT_dupInsert _ nw, ?_⟩
        · rw [lensLe_iff]
          intro k hk
          rcases keysT_dupInsert _ nw k hk with rfl | hk2
          · exact hlnw
          · exact lensLe_iff.mp hlens k hk2
        · exact Or.inr (Or.inr (Or.inl
            ⟨rfl, [], ob, l, r, rc, rfl, hobneg, hmatch, rfl⟩))
    · -- ordinary split point
      have hobLt : ob.toNat < 8 * lenB := by
        rcases hbcond with h | h
        · omega
        · omega
      set e := (if (bv : Int) < ob then equal_bits nw.key rc.key bv ob.toNat else bv : Nat)
        with he_def
      have hege : bv ≤ e := by
        rw [he_def]
        split
        · next h => exact equal_bits_ge _ _ _ _ (by omega)
        · exact le_rfl
      have he_agree : ∀ i < e, keyBit nw.key i = keyBit rc.key i := by
        intro i hi
        rw [he_def] at hi
        split at hi
        · next h =>
          rcases Nat.lt_or_ge i bv with h2 | h2
          · exact hinv rc.key rc_mem_keysT i h2
          · exact equal_bits_agree _ _ _ _ i h2 hi
        · next h => exact hinv rc.key rc_mem_keysT i hi
      by_cases hdesc : (e : Int) < ob
      · -- splice above the whole subtree
        have hbvob : (bv : Int) < ob := by
          by_contra hc
          rw [he_def, if_neg hc] at hdesc
          exact hc hdesc
        have heeq : e = equal_bits nw.key rc.key bv ob.toNat := by
          rw [he_def, if_pos hbvob]
        have helt : e < ob.toNat := by omega
        have hne : keyBit nw.key e ≠ keyBit rc.key e := by
          rw [heeq]
          exact equal_bits_diff nw.key rc.key bv ob.toNat (by omega)
        have heL : e < 8 * lenB := by omega
        have hguard : e / 8 < 8 * lenB := by omega
        have hag : ∀ m ∈ keysT (Ebt.node ob l r rc), ∀ i < e,
            keyBit nw.key i = keyBit m i := by
          intro m hm i hi
          rw [wf_ord_all hw hobneg m hm i (by omega)]
          exact he_agree i hi
        cases hbw : keyBit nw.key e with
        | false =>
          have hbo : keyBit rc.key e = true := by
            rcases Bool.eq_false_or_eq_true (keyBit rc.key e) with h | h
            · exact h
            · rw [hbw, h] at hne; exact absurd rfl hne
          have hcmp : cmp_bits nw.key rc.key e < 0 := cmp_bits_neg_iff.mpr ⟨hbw, hbo⟩
          have hstep : insLoop (8 * lenB) uniq nw (.node ob l r rc) bv
              = (.node (e : Int) (.leaf nw) (.node ob l r rc) nw, nw) := by
            simp only [insLoop, ← he_def]
            rw [if_neg hobneg, if_pos hdesc, if_pos hguard, if_pos hcmp]
          rw [hstep]
          have hbit : ∀ m ∈ keysT (Ebt.node ob l r rc), keyBit m e = true := by
            intro m hm
            rw [wf_ord_all hw hobneg m hm e helt]
            exact hbo
          obtain ⟨g1, g2, g3, g4, g5⟩ :=
            splice_left_parts hvn hlnw hw hlens hblt hlow heL hege hag hbw hbit
          refine ⟨g1, g2, g3, g4, g5, ?_⟩
          refine Or.inr (Or.inr (Or.inr ⟨rfl, ?_, [], .node ob l r rc, e, rfl, Or.inl rfl⟩))
          intro m hm
          refine ⟨e, heL, ?_⟩
          rw [hbw, hbit m.key (key_mem_keysT hm)]
          simp
        | true =>
          have hbo : keyBit rc.key e = false := by
            rcases Bool.eq_false_or_eq_true (keyBit rc.key e) with h | h
            · rw [hbw, h] at hne; exact absurd rfl hne
            · exact h
          have hcmp : cmp_bits nw.key rc.key e > 0 := cmp_bits_pos_iff.mpr ⟨hbw, hbo⟩
          have hstep : insLoop (8 * lenB) uniq nw (.node ob l r rc) bv
              = (.node (e : Int) (.node ob l r rc) (.leaf nw) nw, nw) := by
            simp only [insLoop, ← he_def]
            rw [if_neg hobneg, if_pos hdesc, if_pos hguard,
              if_neg (by omega : ¬ cmp_bits nw.key rc.key e < 0), if_pos hcmp]
          rw [hstep]
          have hbit : ∀ m ∈ keysT (Ebt.node ob l r rc), keyBit m e = false := by
            intro m hm
            rw [wf_ord_all hw hobneg m hm e helt]
            exact hbo
          obtain ⟨g1, g2, g3, g4, g5⟩ :=
            splice_right_parts hvn hlnw hw hlens hblt hlow heL hege hag hbw hbit
          refine ⟨g1, g2, g3, g4, g5, ?_⟩
          refine Or.inr (Or.inr (Or.inr ⟨rfl, ?_, [], .node ob l r rc, e, rfl, Or.inr rfl⟩))
          intro m hm
          refine ⟨e, heL, ?_⟩
          rw [hbw, hbit m.key (key_mem_keysT hm)]
          simp
      · -- walk down
        have hobe : ob.toNat ≤ e := by omega
        have hnw_rc : ∀ i < ob.toNat, keyBit nw.key i = keyBit rc.key i := by
          intro i hi
          exact he_agree i (by omega)
        have heB : e ≤ 8 * lenB := by
          rw [he_def]
          split
          · next h =>
            have := equal_bits_le nw.key rc.key bv ob.toNat
            omega
          · exact hbv
        have hlowe : ∀ s : Ebt, lowAll (ob.toNat + 1) s = true → lowAll bv s = true →
            lowAll e s = true := by
          intro s h1 h2
          rw [he_def]
          split
          · next h =>
            refine lowAll_mono ?_ h1
            have := equal_bits_le nw.key rc.key bv ob.toNat
            omega
          · exact h2
        have hinv_child : ∀ sub : Ebt, (∀ k ∈ keysT sub,
              (∀ i < ob.toNat, keyBit k i = keyBit rc.key i)) →
            (∀ k ∈ keysT sub, ∀ i < bv, keyBit nw.key i = keyBit k i) →
            ∀ k ∈ keysT sub, ∀ i < e, keyBit nw.key i = keyBit k i := by
          intro sub hsub hsub2 k hk i hi
          rw [he_def] at hi
          split at hi
          · next h =>
            have hie : i < ob.toNat := by
              have := equal_bits_le nw.key rc.key bv ob.toNat
              omega
            rw [hsub k hk i hie]
            exact hnw_rc i hie
          · next h => exact hsub2 k hk i hi
        cases hbw : keyBit nw.key ob.toNat with
        | true =>
          have hside1 : (byteAt nw.key (ob.toNat / 8) >>> (7 - ob.toNat % 8)) % 2 = 1 :=
            (keyBit_side_iff ob.toNat).mpr hbw
          have hstep : insLoop (8 * lenB) uniq nw (.node ob l r rc) bv
              = (.node ob l (insLoop (8 * lenB) uniq nw r e).1 rc,
                 (insLoop (8 * lenB) uniq nw r e).2) := by
            simp only [insLoop, ← he_def]
            rw [if_neg hobneg, if_neg hdesc, if_pos hside1]
          rw [hstep]
          obtain ⟨g1, g2, g3, g4, g5, g6⟩ := ihr e hwr hlensr hbltr
            (hlowe r (wf_child_lowAll hw hobneg).2 hlowr) heB
            (hinv_child r (fun k hk => (wf_ord_right hw hobneg k hk).1)
              (fun k hk i hi => hinv k (keysT_subset_right hk) i hi))
          refine ⟨?_, ?_, ?_, ?_, ?_, ?_⟩
          · refine wf_node_intro_ord hobneg hvrc hwl g1 (wf_ord_left hw hobneg) ?_
            intro m hm
            rcases g5 m hm with rfl | hm2
            · exact ⟨fun i hi => (hnw_rc i hi).symm ▸ (hnw_rc i hi), hbw⟩
            · exact wf_ord_right hw hobneg m hm2
          · rw [lensLe_node]
            exact ⟨hlrc, hlensl, g2⟩
          · rw [bitsLt_node]
            exact ⟨hbcond, hbltl, g3⟩
          · rw [lowAll_node]
            exact ⟨hlcond, hlowl, lowAll_mono hege g4⟩
          · intro k hk
            rw [keysT, List.mem_cons, List.mem_append] at hk
            rcases hk with rfl | hk | hk
            · exact Or.inr rc_mem_keysT
            · exact Or.inr (keysT_subset_left hk)
            · rcases g5 k hk with rfl | hk2
              · exact Or.inl rfl
              · exact Or.inr (keysT_subset_right hk2)
          · refine insOutcome_lift_right g6 ?_
            intro m hm
            refine ⟨ob.toNat, hobLt, ?_⟩
            rw [hbw, (wf_ord_left hw hobneg m.key (key_mem_keysT hm)).2]
            simp
        | false =>
          have hside0 : ¬ ((byteAt nw.key (ob.toNat / 8) >>> (7 - ob.toNat % 8)) % 2 = 1) := by
            intro hc
            have := (keyBit_side_iff ob.toNat).mp hc
            rw [hbw] at this
            exact Bool.false_ne_true this
          have hstep : insLoop (8 * lenB) uniq nw (.node ob l r rc) bv
              = (.node ob (insLoop (8 * lenB) uniq nw l e).1 r rc,
                 (insLoop (8 * lenB) uniq nw l e).2) := by
            simp only [insLoop, ← he_def]
            rw [if_neg hobneg, if_neg hdesc, if_neg hside0]
          rw [hstep]
          obtain ⟨g1, g2, g3, g4, g5, g6⟩ := ihl e hwl hlensl hbltl
            (hlowe l (wf_child_lowAll hw hobneg).1 hlowl) heB
            (hinv_child l (fun k hk => (wf_ord_left hw hobneg k hk).1)
              (fun k hk i hi => hinv k (keysT_subset_left hk) i hi))
          refine ⟨?_, ?_, ?_, ?_, ?_, ?_⟩
          · refine wf_node_intro_ord hobneg hvrc g1 hwr ?_ (wf_ord_right hw hobneg)
            intro m hm
            rcases g5 m hm with rfl | hm2
            · exact ⟨fun i hi => hnw_rc i hi, hbw⟩
            · exact wf_ord_left hw hobneg m hm2
          · rw [lensLe_node]
            exact ⟨hlrc, g2, hlensr⟩
          · rw [bitsLt_node]
            exact ⟨hbcond, g3, hbltr⟩
          · rw [lowAll_node]
            exact ⟨hlcond, lowAll_mono hege g4, hlowr⟩
          · intro k hk
            rw [keysT, List.mem_cons, List.mem_append] at hk
            rcases hk with rfl | hk | hk
            · exact Or.inr rc_mem_keysT
            · rcases g5 k hk with rfl | hk2
              · exact Or.inl rfl
              · exact Or.inr (keysT_subset_left hk2)
            · exact Or.inr (keysT_subset_right hk)
          · refine insOutcome_lift_left g6 ?_
            intro m hm
            refine ⟨ob.toNat, hobLt, ?_⟩
            rw [hbw, (wf_ord_right hw hobneg m.key (key_mem_keysT hm)).2]
            simp

/-! ### Path, replacement and outcome corollaries -/

theorem lowAll_zero : ∀ (t : Ebt), lowAll 0 t = true := by
  intro t
  induction t with
  | leaf q => rfl
  | node b l r rc ihl ihr =>
    rw [lowAll_node]
    exact ⟨by omega, ihl, ihr⟩

theorem leaves_replaceAt : ∀ {t : Ebt} {p : List Bool} {s : Ebt},
    subtreeAt t p = some s → ∀ s' : Ebt,
    ∃ pre post, leavesR t = pre ++ (leavesR s ++ post) ∧
      leavesR (replaceAt t p s') = pre ++ (leavesR s' ++ post) := by
  intro t
  induction t with
  | leaf q =>
    intro p s hsub s'
    cases p with
    | nil =>
      refine ⟨[], [], ?_, ?_⟩
      · simp only [subtreeAt, Option.some.injEq] at hsub
        rw [← hsub]
        simp
      · simp [replaceAt]
    | cons b p2 => simp [subtreeAt] at hsub
  | node bt l r rc ihl ihr =>
    intro p s hsub s'
    cases p with
    | nil =>
      refine ⟨[], [], ?_, ?_⟩
      · simp only [subtreeAt, Option.some.injEq] at hsub
        rw [← hsub]
        simp
      · simp [replaceAt]
    | cons b p2 =>
      cases b with
      | true =>
        have hsub2 : subtreeAt r p2 = some s := by simpa [subtreeAt] using hsub
        obtain ⟨pre, post, h1, h2⟩ := ihr hsub2 s'
        refine ⟨leavesR l ++ pre, post, ?_, ?_⟩
        · rw [leavesR, h1, List.append_assoc]
        · show leavesR (replaceAt (Ebt.node bt l r rc) (true :: p2) s') = _
          simp only [replaceAt, if_pos]
          rw [leavesR, h2, List.append_assoc]
      | false =>
        have hsub2 : subtreeAt l p2 = some s := by simpa [subtreeAt] using hsub
        obtain ⟨pre, post, h1, h2⟩ := ihl hsub2 s'
        refine ⟨pre, post ++ leavesR r, ?_, ?_⟩
        · rw [leavesR, h1]
          simp [List.append_assoc]
        · show leavesR (replaceAt (Ebt.node bt l r rc) (false :: p2) s') = _
          simp only [replaceAt, if_neg Bool.false_ne_true]
          rw [leavesR, h2]
          simp [List.append_assoc]

theorem subtree_leaves_mem {t : Ebt} {p : List Bool} {s : Ebt}
    (hsub : subtreeAt t p = some s) {m : Record} (hm : m ∈ leavesR s) :
    m ∈ leavesR t := by
  obtain ⟨pre, post, h1, _⟩ := leaves_replaceAt hsub s
  rw [h1, List.mem_append, List.mem_append]
  exact Or.inr (Or.inl hm)

theorem wfT_subtreeAt : ∀ {t : Ebt} {p : List Bool} {s : Ebt},
    wfT t = true → subtreeAt t p = some s → wfT s = true := by
  intro t
  induction t with
  | leaf q =>
    intro p s hw hsub
    cases p with
    | nil => simp only [subtreeAt, Option.some.injEq] at hsub; rw [← hsub]; exact hw
    | cons b p2 => simp [subtreeAt] at hsub
  | node bt l r rc ihl ihr =>
    intro p s hw hsub
    obtain ⟨hvrc, hwl, hwr⟩ := wf_node_parts hw
    cases p with
    | nil => simp only [subtreeAt, Option.some.injEq] at hsub; rw [← hsub]; exact hw
    | cons b p2 =>
      cases b with
      | true => exact ihr hwr (by simpa [subtreeAt] using hsub)
      | false => exact ihl hwl (by simpa [subtreeAt] using hsub)

theorem anchorFree_node {b : Int} {l r : Ebt} {rc : Record} :
    anchorFree (Ebt.node b l r rc) = true ↔
      0 ≤ b ∧ anchorFree l = true ∧ anchorFree r = true := by
  rw [anchorFree]
  simp [Bool.and_eq_true, and_assoc]

theorem anchorFree_subtreeAt : ∀ {t : Ebt} {p : List Bool} {s : Ebt},
    anchorFree t = true → subtreeAt t p = some s → anchorFree s = true := by
  intro t
  induction t with
  | leaf q =>
    intro p s ha hsub
    cases p with
    | nil => simp only [subtreeAt, Option.some.injEq] at hsub; rw [← hsub]; exact ha
    | cons b p2 => simp [subtreeAt] at hsub
  | node bt l r rc ihl ihr =>
    intro p s ha hsub
    obtain ⟨hb, hal, har⟩ := anchorFree_node.mp ha
    cases p with
    | nil => simp only [subtreeAt, Option.some.injEq] at hsub; rw [← hsub]; exact ha
    | cons b p2 =>
      cases b with
      | true => exact ihr har (by simpa [subtreeAt] using hsub)
      | false => exact ihl hal (by simpa [subtreeAt] using hsub)

theorem anchorFree_replaceAt : ∀ {t : Ebt} {p : List Bool} (s' : Ebt),
    anchorFree t = true → anchorFree s' = true →
    anchorFree (replaceAt t p s') = true := by
  intro t
  induction t with
  | leaf q =>
    intro p s' ha hs
    cases p with
    | nil => exact hs
    | cons b p2 => exact ha
  | node bt l r rc ihl ihr =>
    intro p s' ha hs
    obtain ⟨hb, hal, har⟩ := anchorFree_node.mp ha
    cases p with
    | nil => exact hs
    | cons b p2 =>
      cases b with
      | true =>
        show anchorFree (if true = true then _ else _) = true
        rw [if_pos rfl, anchorFree_node]
        exact ⟨hb, hal, ihr s' har hs⟩
      | false =>
        show anchorFree (if false = true then _ else _) = true
        rw [if_neg Bool.false_ne_true, anchorFree_node]
        exact ⟨hb, ihl s' hal hs, har⟩

theorem perm_insert_middle {mid2 mid : List Record} (pre post : List Record) {nw : Record}
    (h : mid2.Perm (nw :: mid)) :
    (pre ++ (mid2 ++ post)).Perm (nw :: (pre ++ (mid ++ post))) := by
  have h1 : (mid2 ++ post).Perm ((nw :: mid) ++ post) := h.append_right post
  have h2 : (pre ++ (mid2 ++ post)).Perm (pre ++ ((nw :: mid) ++ post)) := h1.append_left pre
  refine h2.trans ?_
  have heq : pre ++ ((nw :: mid) ++ post) = pre ++ nw :: (mid ++ post) := by simp
  rw [heq]
  exact List.perm_middle

theorem perm_snoc (l : List Record) (nw : Record) : (l ++ [nw]).Perm (nw :: l) := by
  have h : (l ++ nw :: []).Perm (nw :: (l ++ [])) := List.perm_middle
  rw [List.append_nil] at h
  exact h

/-- Either the call rejected (unique mode, tree unchanged) or the result's
leaves are a permutation of the new record added to the old leaves. -/
theorem insOutcome_perm {lenB : Nat} {uniq : Bool} {nw : Record} {t t' : Ebt}
    {ret : Record} (ho : InsOutcome lenB uniq nw t t' ret) :
    (uniq = true ∧ t' = t ∧ ret ∈ leavesR t ∧ MatchL lenB nw.key ret.key) ∨
    (ret = nw ∧ (leavesR t').Perm (nw :: leavesR t)) := by
  rcases ho with h | ⟨hu, hret, p, old, hsub, hmat, hrep⟩ |
    ⟨hret, p, b2, l2, r2, rc2, hsub, hb2, hmat, hrep⟩ | ⟨hret, hnm, p, s, dd, hsub, hrep⟩
  · exact Or.inl h
  · refine Or.inr ⟨hret, ?_⟩
    obtain ⟨pre, post, h1, h2⟩ := leaves_replaceAt hsub
      (Ebt.node (-1) (.leaf old) (.leaf nw) nw)
    rw [hrep, h2, h1]
    exact perm_insert_middle pre post (List.Perm.swap nw old [])
  · refine Or.inr ⟨hret, ?_⟩
    obtain ⟨pre, post, h1, h2⟩ := leaves_replaceAt hsub
      (dupInsert (Ebt.node b2 l2 r2 rc2) nw)
    rw [hrep, h2, h1]
    refine perm_insert_middle pre post ?_
    rw [leaves_dupInsert]
    exact perm_snoc _ nw
  · refine Or.inr ⟨hret, ?_⟩
    rcases hrep with hrepl | hrepl
    · obtain ⟨pre, post, h1, h2⟩ := leaves_replaceAt hsub
        (Ebt.node (dd : Int) (.leaf nw) s nw)
      rw [hrepl, h2, h1]
      exact perm_insert_middle pre post (List.Perm.refl _)
    · obtain ⟨pre, post, h1, h2⟩ := leaves_replaceAt hsub
        (Ebt.node (dd : Int) s (.leaf nw) nw)
      rw [hrepl, h2, h1]
      refine perm_insert_middle pre post ?_
      show (leavesR s ++ [nw]).Perm _
      exact perm_snoc _ nw

/-! ### Repeated unique-mode insertion -/

theorem key_eq_of_bytes {a b : List Nat} {n : Nat} (ha : a.length = n)
    (hb : b.length = n) (h : ∀ i < n, byteAt a i = byteAt b i) : a = b := by
  apply List.ext_getElem (by omega)
  intro i h1 h2
  have h3 := h i (by omega)
  rwa [byteAt, byteAt, List.getD_eq_getElem _ _ h1, List.getD_eq_getElem _ _ h2] at h3

theorem matchL_key_eq {a b : List Nat} {lenB : Nat} (hva : validK a = true)
    (hvb : validK b = true) (hla : a.length = lenB) (hlb : b.length = lenB)
    (h : MatchL lenB a b) : a = b := by
  refine key_eq_of_bytes hla hlb (fun i hi => ?_)
  exact (byteAt_eq_iff_bits hva hvb i).mpr (fun r hr => h _ (by omega))

theorem insertAll_spec (lenB : Nat) (hlen : 0 < lenB) :
    ∀ (rs : List Record) (t : Ebt),
    (∀ q ∈ rs, validK q.key = true ∧ q.key.length = lenB) →
    (∀ q ∈ rs, ∀ m ∈ leavesR t, m.key ≠ q.key) →
    rs.Pairwise (fun a b => a.key ≠ b.key) →
    wfT t = true → lensLe lenB t = true → bitsLt (8 * lenB) t = true →
    anchorFree t = true → (∀ m ∈ leavesR t, m.key.length = lenB ∧ validK m.key = true) →
    ∃ t2 : Ebt, insertAll lenB ⟨some t, true⟩ rs = ⟨some t2, true⟩ ∧
      wfT t2 = true ∧ lensLe lenB t2 = true ∧ bitsLt (8 * lenB) t2 = true ∧
      anchorFree t2 = true ∧ (leavesR t2).Perm (rs ++ leavesR t) := by
  intro rs
  induction rs with
  | nil =>
    intro t _ _ _ hw hlens hblt haf _
    exact ⟨t, rfl, hw, hlens, hblt, haf, by simp⟩
  | cons q rest ih =>
    intro t hval hnot hdist hw hlens hblt haf hleneq
    obtain ⟨hvq, hlq⟩ := hval q (List.mem_cons_self _ _)
    obtain ⟨g1, g2, g3, g4, g5, g6⟩ := insLoop_spec lenB true q hlen hvq
      (le_of_eq hlq) t 0 hw hlens hblt (lowAll_zero t) (by omega)
      (fun k _ i hi => absurd hi (by omega))
    -- only the no-match splice can happen here
    have hnewleaf : (leavesR (insLoop (8 * lenB) true q t 0).1).Perm (q :: leavesR t) := by
      rcases insOutcome_perm g6 with ⟨_, _, hret, hmat⟩ | ⟨_, hperm⟩
      · exfalso
        have hv := hleneq _ hret
        have := matchL_key_eq hvq hv.2 hlq hv.1 hmat
        exact hnot q (List.mem_cons_self _ _) _ hret this.symm
      · exact hperm
    have hanchorfree : anchorFree (insLoop (8 * lenB) true q t 0).1 = true := by
      rcases g6 with ⟨_, ht, _, _⟩ | ⟨hu, _⟩ | ⟨_, p, b2, l2, r2, rc2, hsub, hb2, _, _⟩ |
        ⟨_, _, p, s, dd, hsub, hrep⟩
      · rw [ht]; exact haf
      · exact absurd hu (by simp)
      · exfalso
        have := anchorFree_node.mp (anchorFree_subtreeAt haf hsub)
        omega
      · have hafs : anchorFree s = true := anchorFree_subtreeAt haf hsub
        rcases hrep with h | h
        · rw [h]
          refine anchorFree_replaceAt _ haf ?_
          rw [anchorFree_node]
          exact ⟨by omega, rfl, hafs⟩
        · rw [h]
          refine anchorFree_replaceAt _ haf ?_
          rw [anchorFree_node]
          exact ⟨by omega, hafs, rfl⟩
    have hstep : insertAll lenB (⟨some t, true⟩ : EbRoot) (q :: rest)
        = insertAll lenB ⟨some (insLoop (8 * lenB) true q t 0).1, true⟩ rest := rfl
    rw [hstep]
    obtain ⟨t2, heq, hw2, hlens2, hblt2, haf2, hperm2⟩ :=
      ih (insLoop (8 * lenB) true q t 0).1
        (fun q2 hq2 => hval q2 (List.mem_cons_of_mem _ hq2))
        (fun q2 hq2 m hm => by
          have hm2 := hnewleaf.mem_iff.mp hm
          rcases List.mem_cons.mp hm2 with rfl | hm3
          · exact (List.pairwise_cons.mp hdist).1 q2 hq2
          · exact hnot q2 (List.mem_cons_of_mem _ hq2) m hm3)
        (List.pairwise_cons.mp hdist).2 g1 g2 g3 hanchorfree
        (fun m hm => by
          have hm2 := hnewleaf.mem_iff.mp hm
          rcases List.mem_cons.mp hm2 with rfl | hm3
          · exact ⟨hlq, hvq⟩
          · exact hleneq m hm3)
    refine ⟨t2, heq, hw2, hlens2, hblt2, haf2, ?_⟩
    refine hperm2.trans ?_
    refine (List.Perm.append_left rest hnewleaf).trans ?_
    exact List.perm_middle

/-- Bound on the number of positions the lookup main loop visits: at most
one per bit index from `lo` up to the compared bit length, plus one for a
terminal visit (duplicate anchor, mismatch or walk-down exit). -/
theorem lookSteps_bound (x : List Nat) (lenB : Nat) : ∀ (t : Ebt) (pos lo : Nat),
    wfT t = true → bitsLt (8 * lenB) t = true → lowAll lo t = true →
    lookSteps x lenB t pos ≤ 8 * lenB - lo + 1 := by
  intro t
  induction t with
  | leaf q =>
    intro pos lo _ _ _
    rw [lookSteps]
    omega
  | node b l r rc ihl ihr =>
    intro pos lo hw hblt hlow
    obtain ⟨hvrc, hwl, hwr⟩ := wf_node_parts hw
    obtain ⟨hbb, hbl, hbr⟩ := bitsLt_node.mp hblt
    obtain ⟨hlo, hll, hlr⟩ := lowAll_node.mp hlow
    rw [lookSteps]
    by_cases hneg : b < 0
    · rw [if_pos hneg]
      omega
    · rw [if_neg hneg]
      have hchild := wf_child_lowAll hw hneg
      have hlo2 : (lo : Int) ≤ b := hlo.resolve_left hneg
      have hblt8 : b < (8 * lenB : Int) := hbb.resolve_left hneg
      have hgen : ∀ (p1 nb : Nat),
          (if (byteAt rc.key p1 >>> nb) ^^^ (byteAt x p1 >>> nb) > 1 then 1
           else if (byteAt x p1 >>> nb) % 2 == 1 then 1 + lookSteps x lenB r p1
           else 1 + lookSteps x lenB l p1) ≤ 8 * lenB - lo + 1 := by
        intro p1 nb
        split
        · omega
        · split
          · have hc := ihr p1 (b.toNat + 1) hwr hbr hchild.2
            omega
          · have hc := ihl p1 (b.toNat + 1) hwl hbl hchild.1
            omega
      split
      · omega
      · omega
      · exact hgen _ _

/-- The same bound for the insert descent loop. -/
theorem insSteps_bound (nw : Record) (lenB : Nat) : ∀ (t : Ebt) (bv lo : Nat),
    wfT t = true → bitsLt (8 * lenB) t = true → lowAll lo t = true →
    insSteps nw t bv ≤ 8 * lenB - lo + 1 := by
  intro t
  induction t with
  | leaf q =>
    intro bv lo _ _ _
    rw [insSteps]
    omega
  | node b l r rc ihl ihr =>
    intro bv lo hw hblt hlow
    obtain ⟨hvrc, hwl, hwr⟩ := wf_node_parts hw
    obtain ⟨hbb, hbl, hbr⟩ := bitsLt_node.mp hblt
    obtain ⟨hlo, hll, hlr⟩ := lowAll_node.mp hlow
    rw [insSteps]
    by_cases hneg : b < 0
    · rw [if_pos hneg]
      omega
    · rw [if_neg hneg]
      have hchild := wf_child_lowAll hw hneg
      have hlo2 : (lo : Int) ≤ b := hlo.resolve_left hneg
      have hblt8 : b < (8 * lenB : Int) := hbb.resolve_left hneg
      have hgen : ∀ d : Nat,
          (if (d : Int) < b then 1
           else if (byteAt nw.key (b.toNat / 8) >>> (7 - b.toNat % 8)) % 2 = 1
             then 1 + insSteps nw r d else 1 + insSteps nw l d) ≤ 8 * lenB - lo + 1 := by
        intro d
        split
        · omega
        · split
          · have hc := ihr d (b.toNat + 1) hwr hbr hchild.2
            omega
          · have hc := ihl d (b.toNat + 1) hwl hbl hchild.1
            omega
      exact hgen _

theorem frame_ret_nw {st2 st' : IStore} {ret nw : Nat}
    (h : (some (st2, nw) : Option (IStore × Nat)) = some (st', ret)) (hne : ret ≠ nw) :
    False := by
  simp only [Option.some.injEq, Prod.mk.injEq] at h
  exact hne h.2.symm

/-- Whenever the store descent loop returns a record other than the
newcomer, the final store is the initial one with exactly one slot changed:
the newcomer's node-aspect parent slot now holds the returned record's
leaf-aspect parent link. -/
theorem insLoopS_frame (uniq : Bool) (nw L : Nat) : ∀ (fuel : Nat) (st : IStore)
    (tb : EPtr) (tg : Nat) (rootp : EPtr) (side bv : Nat) (st' : IStore) (ret : Nat),
    insLoopS uniq nw L fuel st tb tg rootp side bv = some (st', ret) → ret ≠ nw →
    st' = setNodeP st nw (st.leafP ret) := by
  intro fuel
  induction fuel with
  | zero =>
    intro st tb tg rootp side bv st' ret h hne
    rw [insLoopS] at h
    exact absurd h (by simp)
  | succ f ih =>
    intro st tb tg rootp side bv st' ret h hne
    cases tb with
    | rt =>
      rw [insLoopS] at h
      exact absurd h (by simp)
    | br old =>
      rw [insLoopS] at h
      split at h
      · split at h
        · exact (frame_ret_nw h hne).elim
        · split at h
          · simp only [Option.some.injEq, Prod.mk.injEq] at h
            rw [← h.1, h.2]
          · split at h
            · exact (frame_ret_nw h hne).elim
            · exact (frame_ret_nw h hne).elim
      · split at h
        · split at h
          · exact (frame_ret_nw h hne).elim
          · split at h
            · exact (frame_ret_nw h hne).elim
            · rw [dupInsertS] at h
              exact (frame_ret_nw h hne).elim
        · split at h
          · split at h
            · exact (frame_ret_nw h hne).elim
            · split at h
              · exact (frame_ret_nw h hne).elim
              · rw [dupInsertS] at h
                exact (frame_ret_nw h hne).elim
          · split at h
            · exact absurd h (by simp)
            · exact ih st _ _ (.br old) (sideOf st nw old) (descD st nw old bv) st' ret h hne

/-! ### The claims -/

/-- C1: for every well-formed tree and every lengthBytes > 0,
`lookup(tree, key, lengthBytes)` returns the leftmost (lexicographically
smallest) leaf whose key agrees with `key` on the first `lengthBytes * 8`
bits, and returns nothing exactly when no stored key shares that
bit-length prefix with `key`. -/
theorem claim_C1_lookup_leftmost (t : Ebt) (u : Bool) (x : List Nat) (lenB : Nat)
    (hw : wfT t = true) (hx : validK x = true) (hlen : 0 < lenB) :
    ebim_lookup ⟨some t, u⟩ x lenB = ((leavesR t).filter (matchesB x lenB)).head? ∧
    (∀ r, ebim_lookup ⟨some t, u⟩ x lenB = some r →
      r ∈ leavesR t ∧ matchesB x lenB r = true ∧
      ∀ m ∈ leavesR t, matchesB x lenB m = true → keyLe r.key m.key = true) ∧
    (ebim_lookup ⟨some t, u⟩ x lenB = none ↔
      ∀ m ∈ leavesR t, matchesB x lenB m = false) := by
  have h := ebim_lookup_eq_head t u x lenB hw hx hlen
  refine ⟨h, ?_, ?_⟩
  · intro r hr
    rw [h] at hr
    have hmem : r ∈ (leavesR t).filter (matchesB x lenB) := by
      cases hfe : (leavesR t).filter (matchesB x lenB) with
      | nil => rw [hfe] at hr; exact absurd hr (by simp)
      | cons a tl =>
        rw [hfe] at hr
        have har : a = r := by simpa using hr
        rw [har]
        exact List.mem_cons_self _ _
    have hmf := List.mem_filter.mp hmem
    exact ⟨hmf.1, hmf.2, head_filter_le (leaves_sorted hw) hr⟩
  · rw [h, List.head?_eq_none_iff, List.filter_eq_nil_iff]
    constructor
    · intro hnone m hm
      exact Bool.eq_false_iff.mpr (hnone m hm)
    · intro hall m hm
      rw [hall m hm]
      exact Bool.false_ne_true

theorem claim_C1_witness :
    wfT tApp = true ∧ validK [97, 112, 112] = true ∧ 0 < 3 ∧
    ebim_lookup ⟨some tApp, false⟩ [97, 112, 112] 3 = some rApp :=
  ⟨by decide, by decide, by decide,
    (claim_C1_lookup_leftmost tApp false [97, 112, 112] 3 (by decide) (by decide)
      (by decide)).1.trans (by decide)⟩

/-- C2: for any sequence of inserts of pairwise-distinct keys into an
initially empty unique-mode tree, a subsequent lookup of each inserted key
over its own length returns exactly the record that was inserted with it. -/
theorem claim_C2_round_trip (lenB : Nat) (rs : List Record) (hlen : 0 < lenB)
    (hval : ∀ q ∈ rs, validK q.key = true ∧ q.key.length = lenB)
    (hdist : rs.Pairwise (fun a b => a.key ≠ b.key)) :
    ∀ q ∈ rs, ebim_lookup (insertAll lenB ⟨none, true⟩ rs) q.key lenB = some q := by
  cases rs with
  | nil => intro q hq; exact absurd hq (List.not_mem_nil q)
  | cons q0 rest =>
    have hv0 := hval q0 (List.mem_cons_self _ _)
    have hstep : insertAll lenB (⟨none, true⟩ : EbRoot) (q0 :: rest)
        = insertAll lenB ⟨some (.leaf q0), true⟩ rest := rfl
    obtain ⟨t2, heq, hw2, hlens2, hblt2, haf2, hperm⟩ := insertAll_spec lenB hlen rest
      (.leaf q0)
      (fun q hq => hval q (List.mem_cons_of_mem _ hq))
      (fun q hq m hm => by
        simp only [leavesR, List.mem_singleton] at hm
        subst hm
        exact (List.pairwise_cons.mp hdist).1 q hq)
      (List.pairwise_cons.mp hdist).2
      hv0.1
      (by
        rw [lensLe_iff]
        intro k hk
        simp only [keysT, List.mem_singleton] at hk
        subst hk
        omega)
      rfl rfl
      (fun m hm => by
        simp only [leavesR, List.mem_singleton] at hm
        subst hm
        exact ⟨hv0.2, hv0.1⟩)
    rw [hstep, heq]
    intro q hq
    rw [ebim_lookup_eq_head t2 true q.key lenB hw2 (hval q hq).1 hlen]
    have hqmem : q ∈ leavesR t2 := by
      refine hperm.mem_iff.mpr ?_
      rcases List.mem_cons.mp hq with rfl | hq2
      · exact List.mem_append.mpr (Or.inr (by simp [leavesR]))
      · exact List.mem_append.mpr (Or.inl hq2)
    have hmemrs : ∀ m ∈ leavesR t2, m ∈ q0 :: rest := by
      intro m hm
      have := hperm.mem_iff.mp hm
      rcases List.mem_append.mp this with h2 | h2
      · exact List.mem_cons_of_mem _ h2
      · simp only [leavesR, List.mem_singleton] at h2
        subst h2
        exact List.mem_cons_self _ _
    have honly : ∀ m ∈ leavesR t2, matchesB q.key lenB m = true → m = q := by
      intro m hm hmat
      have hmrs := hmemrs m hm
      have hmv := hval m hmrs
      have hqv := hval q hq
      have hkey : m.key = q.key :=
        matchL_key_eq hmv.1 hqv.1 hmv.2 hqv.2
          (agreeB_iff.mp (by rw [matchesB] at hmat; exact hmat))
      by_contra hne
      have hsym : Symmetric (fun a b : Record => a.key ≠ b.key) :=
        fun a b hab hc => hab hc.symm
      exact (List.Pairwise.forall hsym hdist) hmrs hq hne hkey
    have hqmat : matchesB q.key lenB q = true := by
      rw [matchesB]
      exact agreeB_iff.mpr (fun _ _ => rfl)
    cases hfe : (leavesR t2).filter (matchesB q.key lenB) with
    | nil =>
      exfalso
      have hqf : q ∈ (leavesR t2).filter (matchesB q.key lenB) :=
        List.mem_filter.mpr ⟨hqmem, hqmat⟩
      rw [hfe] at hqf
      exact absurd hqf (List.not_mem_nil q)
    | cons a tl =>
      have ham := List.mem_filter.mp
        (by rw [hfe]; exact List.mem_cons_self a tl :
          a ∈ (leavesR t2).filter (matchesB q.key lenB))
      have haq : a = q := honly a ham.1 ham.2
      rw [haq]
      rfl

theorem claim_C2_witness :
    (0 : Nat) < 1 ∧
    ebim_lookup (insertAll 1 ⟨none, true⟩ [⟨1, [1]⟩, ⟨2, [2]⟩]) [2] 1
      = some ⟨2, [2]⟩ :=
  ⟨by decide,
    claim_C2_round_trip 1 [⟨1, [1]⟩, ⟨2, [2]⟩] (by decide) (by decide) (by decide)
      ⟨2, [2]⟩ (by decide)⟩

/-- C3 (code_bug): the guards at source lines 216 and 287 compare
`(unsigned)bit >> 3` — a byte count — against `len`, which at that point has
already been converted to bits by `len <<= 3`, so the code is allowed to
consult `cmp_bits` one bit past the compared length, contrary to the adjacent
comment "we don't want to start to compare past the end".  Concretely: the
keys [0, 0] and [0, 128] are equal over the compared length of 1 byte
(`memEq … = true`, a duplicate situation in which a unique-keys tree must
return the already-stored record), and the first-difference scan over the 8
compared bits finds no difference; yet inserting the second record into a
unique tree holding the first splices an ordinary split node at bit 8 — past
the end — and returns the newcomer, admitting a duplicate key into a
unique-keys tree. -/
theorem claim_C3_guard_bug :
    memEq rb1.key rb2.key 0 1 = true ∧
    equal_bits rb2.key rb1.key 0 (8 * 1) = 8 * 1 ∧
    ebim_insert (ebim_insert ⟨none, true⟩ rb1 1).1 rb2 1
      = (⟨some (.node 8 (.leaf rb1) (.leaf rb2) rb2), true⟩, rb2) := by
  refine ⟨by decide, ?_, ?_⟩
  · simp [equal_bits, rb1, rb2, keyBit, byteAt]
  · simp [ebim_insert, insLoop, equal_bits, cmp_bits, rb1, rb2, keyBit, byteAt]
    decide

/-- C4: inserting into a unique-mode tree a record whose key matches some
stored key over the whole compared length leaves the tree unchanged and
returns the already-stored matching record (here `r0`, the unique stored
match). -/
theorem claim_C4_unique_reject (lenB : Nat) (t : Ebt) (nw r0 : Record)
    (hlen : 0 < lenB) (hvn : validK nw.key = true) (hlnw : nw.key.length ≤ lenB)
    (hw : wfT t = true) (hlens : lensLe lenB t = true)
    (hblt : bitsLt (8 * lenB) t = true) (haf : anchorFree t = true)
    (hr0 : r0 ∈ leavesR t) (hm : MatchL lenB nw.key r0.key)
    (huniq : ∀ m ∈ leavesR t, MatchL lenB nw.key m.key → m = r0) :
    ebim_insert ⟨some t, true⟩ nw lenB = (⟨some t, true⟩, r0) := by
  obtain ⟨hw2, hlens2, hblt2, hlow2, hkeys2, hout⟩ :=
    insLoop_spec lenB true nw hlen hvn hlnw t 0 hw hlens hblt (lowAll_zero t)
      (by omega) (fun k _ i hi => absurd hi (by omega))
  rcases hout with ⟨_, ht, hret, hmat⟩ | ⟨hu, _⟩ |
    ⟨_, p, b2, l2, r2, rc2, hsub, hb2, _, _⟩ | ⟨_, hnm, _⟩
  · have hr : (insLoop (8 * lenB) true nw t 0).2 = r0 := huniq _ hret hmat
    show ((⟨some (insLoop (8 * lenB) true nw t 0).1, true⟩ : EbRoot),
        (insLoop (8 * lenB) true nw t 0).2) = (⟨some t, true⟩, r0)
    rw [ht, hr]
  · exact absurd hu (by simp)
  · have ha := anchorFree_subtreeAt haf hsub
    have h0 := (anchorFree_node.mp ha).1
    omega
  · obtain ⟨i, hi, hne⟩ := hnm r0 hr0
    exact absurd (hm i hi) hne

theorem claim_C4_witness :
    MatchL 1 rc2.key rc1.key ∧
    ebim_insert ⟨some (.leaf rc1), true⟩ rc2 1 = (⟨some (.leaf rc1), true⟩, rc1) :=
  ⟨by decide,
    claim_C4_unique_reject 1 (.leaf rc1) rc2 rc1 (by decide) (by decide) (by decide)
      (by decide) (by decide) (by decide) (by decide) (by decide) (by decide)
      (by decide)⟩

/-- C5: inserting the same key twice into a non-unique tree none of whose
stored keys matches it within the compared length admits both records: the
first insert returns the first record; the second splices a duplicate anchor
with bit index -1 at the first record's position, with the first-inserted
record as the anchor's left child and the second as its right child; both
records are then present, and lookup over the compared length returns the
first-inserted record. -/
theorem claim_C5_dup_admission (lenB : Nat) (t0 : Ebt) (r1 r2 : Record) (k : List Nat)
    (hlen : 0 < lenB) (hk1 : r1.key = k) (hk2 : r2.key = k)
    (hv : validK k = true) (hlk : k.length ≤ lenB)
    (hw : wfT t0 = true) (hlens : lensLe lenB t0 = true)
    (hblt : bitsLt (8 * lenB) t0 = true)
    (hnom : ∀ m ∈ leavesR t0, ∃ i, i < 8 * lenB ∧ keyBit k i ≠ keyBit m.key i) :
    ∃ (t1 t2 : Ebt) (p : List Bool),
      ebim_insert ⟨some t0, false⟩ r1 lenB = (⟨some t1, false⟩, r1) ∧
      ebim_insert ⟨some t1, false⟩ r2 lenB = (⟨some t2, false⟩, r2) ∧
      subtreeAt t1 p = some (.leaf r1) ∧
      t2 = replaceAt t1 p (.node (-1) (.leaf r1) (.leaf r2) r2) ∧
      r1 ∈ leavesR t2 ∧ r2 ∈ leavesR t2 ∧
      ebim_lookup ⟨some t2, false⟩ k lenB = some r1 := by
  have hv1 : validK r1.key = true := by rw [hk1]; exact hv
  have hv2 : validK r2.key = true := by rw [hk2]; exact hv
  have hl1 : r1.key.length ≤ lenB := by rw [hk1]; exact hlk
  have hl2 : r2.key.length ≤ lenB := by rw [hk2]; exact hlk
  obtain ⟨hw1, hlens1, hblt1, _, _, hout1⟩ :=
    insLoop_spec lenB false r1 hlen hv1 hl1 t0 0 hw hlens hblt (lowAll_zero t0)
      (by omega) (fun k2 _ i hi => absurd hi (by omega))
  set t1 := (insLoop (8 * lenB) false r1 t0 0).1 with ht1def
  have hretnw1 : (insLoop (8 * lenB) false r1 t0 0).2 = r1 := by
    rcases hout1 with ⟨hu, _⟩ | ⟨_, hret, _⟩ | ⟨hret, _⟩ | ⟨hret, _⟩
    · exact absurd hu (by simp)
    · exact hret
    · exact hret
    · exact hret
  have hins1 : ebim_insert ⟨some t0, false⟩ r1 lenB = (⟨some t1, false⟩, r1) := by
    show ((⟨some (insLoop (8 * lenB) false r1 t0 0).1, false⟩ : EbRoot),
      (insLoop (8 * lenB) false r1 t0 0).2) = (⟨some t1, false⟩, r1)
    rw [hretnw1, ← ht1def]
  have hperm1 : (leavesR t1).Perm (r1 :: leavesR t0) := by
    rcases insOutcome_perm hout1 with ⟨hu, _⟩ | ⟨_, hp⟩
    · exact absurd hu (by simp)
    · exact hp
  have hr1not0 : r1 ∉ leavesR t0 := by
    intro hmem
    obtain ⟨i, hi, hne⟩ := hnom r1 hmem
    rw [hk1] at hne
    exact hne rfl
  have hcount1 : (leavesR t1).count r1 = 1 := by
    rw [hperm1.count_eq, List.count_cons_self, List.count_eq_zero.mpr hr1not0]
  have honly1 : ∀ m ∈ leavesR t1, (∀ i < 8 * lenB, keyBit k i = keyBit m.key i) → m = r1 := by
    intro m hm hmat
    rcases List.mem_cons.mp (hperm1.mem_iff.mp hm) with h | h
    · exact h
    · obtain ⟨i, hi, hne⟩ := hnom m h
      exact absurd (hmat i hi) hne
  obtain ⟨hw2, hlens2, hblt2, _, _, hout2⟩ :=
    insLoop_spec lenB false r2 hlen hv2 hl2 t1 0 hw1 hlens1 hblt1 (lowAll_zero t1)
      (by omega) (fun k2 _ i hi => absurd hi (by omega))
  set t2 := (insLoop (8 * lenB) false r2 t1 0).1 with ht2def
  have hret2 : (insLoop (8 * lenB) false r2 t1 0).2 = r2 := by
    rcases hout2 with ⟨hu, _⟩ | ⟨_, hret, _⟩ | ⟨hret, _⟩ | ⟨hret, _⟩
    · exact absurd hu (by simp)
    · exact hret
    · exact hret
    · exact hret
  rcases hout2 with ⟨hu, _⟩ | ⟨_, _, p, old, hsubB, hmatB, hrepB⟩ |
    ⟨_, p, bC, lC, rC, rcC, hsubC, hbC, hmatC, _⟩ | ⟨_, hnm, _⟩
  · exact absurd hu (by simp)
  · -- the anchor splice at the first record's leaf
    have holdr1 : old = r1 := by
      refine honly1 old (subtree_leaves_mem hsubB (by simp [leavesR])) ?_
      intro i hi
      have h := hmatB i hi
      rw [hk2] at h
      exact h
    rw [holdr1] at hsubB hmatB hrepB
    have hins2 : ebim_insert ⟨some t1, false⟩ r2 lenB = (⟨some t2, false⟩, r2) := by
      show ((⟨some (insLoop (8 * lenB) false r2 t1 0).1, false⟩ : EbRoot),
        (insLoop (8 * lenB) false r2 t1 0).2) = (⟨some t2, false⟩, r2)
      rw [hret2, ← ht2def]
    obtain ⟨pre, post, hdecB1, hdecB2⟩ :=
      leaves_replaceAt hsubB (Ebt.node (-1) (.leaf r1) (.leaf r2) r2)
    have hppperm : (pre ++ post).Perm (leavesR t0) := by
      have h1 : (leavesR t1).Perm (r1 :: (pre ++ post)) := by
        rw [hdecB1]
        exact List.perm_middle
      exact (h1.symm.trans hperm1).cons_inv
    have hpre0 : r1 ∉ pre := fun h =>
      hr1not0 (hppperm.mem_iff.mp (List.mem_append.mpr (Or.inl h)))
    have hpost0 : r1 ∉ post := fun h =>
      hr1not0 (hppperm.mem_iff.mp (List.mem_append.mpr (Or.inr h)))
    have hmself : matchesB k lenB r1 = true := by
      rw [matchesB, hk1]
      exact agreeB_iff.mpr (fun _ _ => rfl)
    have hmself2 : matchesB k lenB r2 = true := by
      rw [matchesB, hk2]
      exact agreeB_iff.mpr (fun _ _ => rfl)
    have hfpre : pre.filter (matchesB k lenB) = [] := by
      rw [List.filter_eq_nil_iff]
      intro m hm hmt
      have hm1 : m ∈ leavesR t1 := by
        rw [hdecB1]
        exact List.mem_append.mpr (Or.inl hm)
      have hmr1 : m = r1 := by
        refine honly1 m hm1 (fun i hi => ?_)
        rw [matchesB] at hmt
        exact (agreeB_iff.mp hmt i hi).symm
      rw [hmr1] at hm
      exact hpre0 hm
    have hfpost : post.filter (matchesB k lenB) = [] := by
      rw [List.filter_eq_nil_iff]
      intro m hm hmt
      have hm1 : m ∈ leavesR t1 := by
        rw [hdecB1]
        exact List.mem_append.mpr (Or.inr (List.mem_append.mpr (Or.inr hm)))
      have hmr1 : m = r1 := by
        refine honly1 m hm1 (fun i hi => ?_)
        rw [matchesB] at hmt
        exact (agreeB_iff.mp hmt i hi).symm
      rw [hmr1] at hm
      exact hpost0 hm
    refine ⟨t1, t2, p, hins1, hins2, hsubB, hrepB, ?_, ?_, ?_⟩
    · rw [hrepB, hdecB2]
      exact List.mem_append.mpr (Or.inr (List.mem_append.mpr (Or.inl (by simp [leavesR]))))
    · rw [hrepB, hdecB2]
      exact List.mem_append.mpr (Or.inr (List.mem_append.mpr (Or.inl (by simp [leavesR]))))
    · rw [ebim_lookup_eq_head t2 false k lenB hw2 hv hlen, hrepB, hdecB2]
      show ((pre ++ ([r1, r2] ++ post)).filter (matchesB k lenB)).head? = some r1
      rw [List.filter_append, List.filter_append, hfpre, hfpost]
      simp [List.filter_cons, hmself, hmself2]
  · -- a duplicate anchor already holding the key cannot exist
    exfalso
    have hwa : wfT (Ebt.node bC lC rC rcC) = true := wfT_subtreeAt hw1 hsubC
    have hstream := wf_anchor_all hwa hbC
    have hmatchOf : ∀ m : Record, m ∈ leavesR (Ebt.node bC lC rC rcC) →
        ∀ i < 8 * lenB, keyBit k i = keyBit m.key i := by
      intro m hm i hi
      have hs : streamEq m.key rcC.key = true := hstream m.key (key_mem_keysT hm)
      have h1 : keyBit k i = keyBit rcC.key i := by
        have h := hmatC i hi
        rw [hk2] at h
        exact h
      rw [h1]
      exact (keyBit_congr_streamEq hs i).symm
    have hlmem : leftmost lC ∈ leavesR (Ebt.node bC lC rC rcC) := by
      rw [leavesR]
      exact List.mem_append.mpr (Or.inl (leftmost_mem lC))
    have hrmem : leftmost rC ∈ leavesR (Ebt.node bC lC rC rcC) := by
      rw [leavesR]
      exact List.mem_append.mpr (Or.inr (leftmost_mem rC))
    have he1 : leftmost lC = r1 :=
      honly1 _ (subtree_leaves_mem hsubC hlmem) (hmatchOf _ hlmem)
    have he2 : leftmost rC = r1 :=
      honly1 _ (subtree_leaves_mem hsubC hrmem) (hmatchOf _ hrmem)
    have hcl : r1 ∈ leavesR lC := by rw [← he1]; exact leftmost_mem lC
    have hcr : r1 ∈ leavesR rC := by rw [← he2]; exact leftmost_mem rC
    obtain ⟨pre2, post2, hdec2, _⟩ := leaves_replaceAt hsubC (Ebt.leaf r1)
    rw [hdec2,
      show leavesR (Ebt.node bC lC rC rcC) = leavesR lC ++ leavesR rC from rfl,
      List.count_append, List.count_append, List.count_append] at hcount1
    have hposl : 0 < (leavesR lC).count r1 := by
      rcases Nat.eq_zero_or_pos ((leavesR lC).count r1) with h0 | hp
      · exact absurd hcl (List.count_eq_zero.mp h0)
      · exact hp
    have hposr : 0 < (leavesR rC).count r1 := by
      rcases Nat.eq_zero_or_pos ((leavesR rC).count r1) with h0 | hp
      · exact absurd hcr (List.count_eq_zero.mp h0)
      · exact hp
    omega
  · -- the no-match splice case contradicts the first record's presence
    exfalso
    have hr1t1 : r1 ∈ leavesR t1 := hperm1.mem_iff.mpr (List.mem_cons_self _ _)
    obtain ⟨i, hi, hne⟩ := hnm r1 hr1t1
    rw [hk2, hk1] at hne
    exact hne rfl

theorem claim_C5_witness :
    ∃ (t1 t2 : Ebt) (p : List Bool),
      ebim_insert ⟨some (.leaf (⟨1, [7]⟩ : Record)), false⟩ ⟨2, [5]⟩ 1
        = (⟨some t1, false⟩, ⟨2, [5]⟩) ∧
      ebim_insert ⟨some t1, false⟩ ⟨3, [5]⟩ 1 = (⟨some t2, false⟩, ⟨3, [5]⟩) ∧
      subtreeAt t1 p = some (.leaf ⟨2, [5]⟩) ∧
      t2 = replaceAt t1 p (.node (-1) (.leaf ⟨2, [5]⟩) (.leaf ⟨3, [5]⟩) ⟨3, [5]⟩) ∧
      (⟨2, [5]⟩ : Record) ∈ leavesR t2 ∧ (⟨3, [5]⟩ : Record) ∈ leavesR t2 ∧
      ebim_lookup ⟨some t2, false⟩ [5] 1 = some ⟨2, [5]⟩ :=
  claim_C5_dup_admission 1 (.leaf ⟨1, [7]⟩) ⟨2, [5]⟩ ⟨3, [5]⟩ [5] (by decide) rfl rfl
    (by decide) (by decide) (by decide) (by decide) (by decide)
    (by
      intro m hm
      simp only [leavesR, List.mem_singleton] at hm
      subst hm
      exact ⟨6, by decide, by decide⟩)

/-- C6: inserting a record whose key fits within the compared length into a
well-formed tree whose keys also fit preserves the invariants: the resulting
tree is well-formed, its split bits are strictly increasing along every path,
every ordinary split bit is the first difference between its two sides, all
split bits stay below the compared bit length, and all key lengths stay
within the compared byte length. -/
theorem claim_C6_wf_preserved (lenB : Nat) (t : Ebt) (nw : Record) (u : Bool)
    (hlen : 0 < lenB) (hvn : validK nw.key = true) (hlnw : nw.key.length ≤ lenB)
    (hw : wfT t = true) (hlens : lensLe lenB t = true)
    (hblt : bitsLt (8 * lenB) t = true) :
    ∀ t2 : Ebt, ((ebim_insert ⟨some t, u⟩ nw lenB).1).tree = some t2 →
      wfT t2 = true ∧ strictInc t2 = true ∧ splitFD t2 = true ∧
      bitsLt (8 * lenB) t2 = true ∧ lensLe lenB t2 = true := by
  intro t2 ht2
  obtain ⟨hw2, hlens2, hblt2, hlow2, hkeys2, hout⟩ :=
    insLoop_spec lenB u nw hlen hvn hlnw t 0 hw hlens hblt (lowAll_zero t)
      (by omega) (fun k _ i hi => absurd hi (by omega))
  have hred : ((ebim_insert ⟨some t, u⟩ nw lenB).1).tree
      = some (insLoop (8 * lenB) u nw t 0).1 := rfl
  rw [hred] at ht2
  rw [← Option.some.inj ht2]
  exact ⟨hw2, wf_strictInc hw2, wf_splitFD hw2, hblt2, hlens2⟩

theorem claim_C6_witness :
    wfT (.node 6 (.leaf ⟨1, [1]⟩) (.leaf ⟨2, [2]⟩) ⟨2, [2]⟩) = true ∧
    strictInc (.node 6 (.leaf ⟨1, [1]⟩) (.leaf ⟨2, [2]⟩) ⟨2, [2]⟩) = true ∧
    splitFD (.node 6 (.leaf ⟨1, [1]⟩) (.leaf ⟨2, [2]⟩) ⟨2, [2]⟩) = true ∧
    bitsLt (8 * 1) (.node 6 (.leaf ⟨1, [1]⟩) (.leaf ⟨2, [2]⟩) ⟨2, [2]⟩) = true ∧
    lensLe 1 (.node 6 (.leaf ⟨1, [1]⟩) (.leaf ⟨2, [2]⟩) ⟨2, [2]⟩) = true :=
  claim_C6_wf_preserved 1 (.leaf ⟨1, [1]⟩) ⟨2, [2]⟩ false (by decide) (by decide)
    (by decide) (by decide) (by decide) (by decide)
    (.node 6 (.leaf ⟨1, [1]⟩) (.leaf ⟨2, [2]⟩) ⟨2, [2]⟩)
    (by
      simp [ebim_insert, insLoop, equal_bits, cmp_bits, keyBit, byteAt]
      decide)

/-- C9 counterexample: the well-formed tree T9 satisfies the bit-range and
strictly-increasing-bit invariants for one-byte keys (bit length 8), yet the
lookup main loop for the one-byte key 0 visits nine positions — eight
ordinary split points plus one duplicate anchor — exceeding the key's bit
length.  The "descent depth is at most the key's bit length" part of the
claim is therefore false as stated. -/
theorem claim_C9_counterexample :
    wfT T9 = true ∧ bitsLt (8 * 1) T9 = true ∧ strictInc T9 = true ∧
    lookSteps [0] 1 T9 0 = 9 ∧ ¬(lookSteps [0] 1 T9 0 ≤ 8 * 1) := by
  decide

/-- C9 (amended): lookup and insert are total in the model, and on every
well-formed tree whose split bits lie below the compared bit length the
descent loops visit at most 8·lenB + 1 positions: at most one per bit index
of the compared length plus one terminal visit (a duplicate anchor or the
exit step). -/
theorem claim_C9_amended (x : List Nat) (lenB : Nat) (t : Ebt) (nw : Record)
    (hw : wfT t = true) (hblt : bitsLt (8 * lenB) t = true) :
    lookSteps x lenB t 0 ≤ 8 * lenB + 1 ∧ insSteps nw t 0 ≤ 8 * lenB + 1 := by
  constructor
  · have h := lookSteps_bound x lenB t 0 0 hw hblt (lowAll_zero t)
    omega
  · have h := insSteps_bound nw lenB t 0 0 hw hblt (lowAll_zero t)
    omega

theorem claim_C9_witness :
    wfT T9 = true ∧ bitsLt (8 * 1) T9 = true ∧
    lookSteps [0] 1 T9 0 ≤ 8 * 1 + 1 ∧ insSteps ⟨20, [0]⟩ T9 0 ≤ 8 * 1 + 1 :=
  ⟨by decide, by decide,
    (claim_C9_amended [0] 1 T9 ⟨20, [0]⟩ (by decide) (by decide)).1,
    (claim_C9_amended [0] 1 T9 ⟨20, [0]⟩ (by decide) (by decide)).2⟩

/-- C7: for every key argument, lookup with length 0 on a non-empty tree
returns the record holding the lexicographically smallest key of the tree
(the leftmost leaf), independent of the argument's content, and lookup on
an empty tree returns nothing. -/
theorem claim_C7_zero_length (t : Ebt) (u u2 : Bool) (x y : List Nat) :
    ebim_lookup ⟨some t, u⟩ x 0 = some (leftmost t) ∧
    (wfT t = true → ∀ m ∈ leavesR t, keyLe (leftmost t).key m.key = true) ∧
    (∀ len : Nat, ebim_lookup ⟨none, u2⟩ y len = none) := by
  exact ⟨rfl, fun hw => leftmost_min hw, fun len => rfl⟩

theorem claim_C7_witness :
    wfT tApp = true ∧
    ebim_lookup ⟨some tApp, false⟩ [255, 255] 0 = some rApp ∧
    keyLe rApp.key rApply.key = true :=
  ⟨by decide,
    (claim_C7_zero_length tApp false false [255, 255] []).1.trans (by decide),
    (claim_C7_zero_length tApp false false [255, 255] []).2.1 (by decide) rApply
      (by decide)⟩

/-- C8: `ebst_lookup_len` returns a record only if that record's key agrees
with the searched key on the first `len` bytes and its byte at position
`len` is the terminator 0; when the underlying search finds a record whose
byte at position `len` is nonzero (the stored key merely continues past the
searched prefix), the call returns nothing. -/
theorem claim_C8_exact_string (t : Ebt) (u : Bool) (x : List Nat) (len : Nat)
    (hw : wfT t = true) (hx : validK x = true) :
    (∀ r, ebst_lookup_len ⟨some t, u⟩ x len = some r →
      r ∈ leavesR t ∧ memEq r.key x 0 len = true ∧ byteAt r.key len = 0) ∧
    (∀ n, ebmb_lookup ⟨some t, u⟩ x len = some n → byteAt n.key len ≠ 0 →
      ebst_lookup_len ⟨some t, u⟩ x len = none) := by
  constructor
  · intro r hr
    rw [ebst_lookup_len] at hr
    cases hres : ebmb_lookup ⟨some t, u⟩ x len with
    | none => rw [hres] at hr; exact absurd hr (by simp)
    | some n =>
      rw [hres] at hr
      have hr2 : (if (byteAt n.key len != 0) = true then (none : Option Record)
          else some n) = some r := hr
      by_cases hb : byteAt n.key len = 0
      · rw [if_neg (by simp [hb])] at hr2
        have hnr : n = r := by simpa using hr2
        subst hnr
        refine ⟨?_, ?_, hb⟩
        · rcases Nat.eq_zero_or_pos len with rfl | hpos
          · have hleft : ebmb_lookup ⟨some t, u⟩ x 0 = some (leftmost t) := rfl
            rw [hleft] at hres
            have : leftmost t = n := by simpa using hres
            rw [← this]
            exact leftmost_mem t
          · have hhead := ebim_lookup_eq_head t u x len hw hx hpos
            rw [ebmb_lookup, hhead] at hres
            cases hfe : (leavesR t).filter (matchesB x len) with
            | nil => rw [hfe] at hres; exact absurd hres (by simp)
            | cons a tl =>
              rw [hfe] at hres
              have han : a = n := by simpa using hres
              have ham := List.mem_filter.mp
                (by rw [hfe]; exact List.mem_cons_self a tl :
                  a ∈ (leavesR t).filter (matchesB x len))
              rw [← han]
              exact ham.1
        · rcases Nat.eq_zero_or_pos len with rfl | hpos
          · rfl
          · have hhead := ebim_lookup_eq_head t u x len hw hx hpos
            rw [ebmb_lookup, hhead] at hres
            cases hfe : (leavesR t).filter (matchesB x len) with
            | nil => rw [hfe] at hres; exact absurd hres (by simp)
            | cons a tl =>
              rw [hfe] at hres
              have han : a = n := by simpa using hres
              have ham := List.mem_filter.mp
                (by rw [hfe]; exact List.mem_cons_self a tl :
                  a ∈ (leavesR t).filter (matchesB x len))
              have hvn : validK n.key = true :=
                wf_valid_keys hw n.key (key_mem_keysT (han ▸ ham.1))
              have hmat := ham.2
              rw [han, matchesB] at hmat
              exact (memEq_iff_agree hvn hx).mpr (agreeB_iff.mp hmat)
      · rw [if_pos (by simpa using hb)] at hr2
        exact absurd hr2 (by simp)
  · intro n hn hb
    rw [ebst_lookup_len, hn]
    show (if (byteAt n.key len != 0) = true then (none : Option Record)
        else some n) = none
    rw [if_pos (by simpa using hb)]

theorem claim_C8_witness :
    wfT (.node 6 (.leaf ⟨50, [5, 0]⟩) (.leaf ⟨51, [7, 3]⟩) ⟨51, [7, 3]⟩) = true ∧
    validK [5] = true ∧ validK [7] = true ∧
    (Record.mk 50 [5, 0] ∈
        leavesR (.node 6 (.leaf ⟨50, [5, 0]⟩) (.leaf ⟨51, [7, 3]⟩) ⟨51, [7, 3]⟩) ∧
      memEq [5, 0] [5] 0 1 = true ∧ byteAt [5, 0] 1 = 0) ∧
    ebst_lookup_len
      ⟨some (.node 6 (.leaf ⟨50, [5, 0]⟩) (.leaf ⟨51, [7, 3]⟩) ⟨51, [7, 3]⟩), false⟩
      [7] 1 = none :=
  ⟨by decide, by decide, by decide,
    (claim_C8_exact_string
        (.node 6 (.leaf ⟨50, [5, 0]⟩) (.leaf ⟨51, [7, 3]⟩) ⟨51, [7, 3]⟩) false
        [5] 1 (by decide) (by decide)).1 ⟨50, [5, 0]⟩ (by decide),
    (claim_C8_exact_string
        (.node 6 (.leaf ⟨50, [5, 0]⟩) (.leaf ⟨51, [7, 3]⟩) ⟨51, [7, 3]⟩) false
        [7] 1 (by decide) (by decide)).2 ⟨51, [7, 3]⟩ (by decide) (by decide)⟩

/-- C10: when an insertion returns a record other than the newcomer — which
happens exactly on the unique-mode rejection path at a leaf — no slot of the
tree handle or of any previously inserted record has been modified, but the
rejected newcomer itself has been mutated: its node-aspect parent slot was
overwritten with the existing leaf's parent link (source line 192) before
the pre-existing record was returned (source line 229). -/
theorem claim_C10_reject_frame (st : IStore) (nw len fuel : Nat) (st' : IStore) (ret : Nat)
    (hrun : ebim_insertS st nw len fuel = some (st', ret)) (hne : ret ≠ nw) :
    st'.nodeP nw = st.leafP ret ∧
    (∀ j, j ≠ nw → st'.nodeP j = st.nodeP j) ∧
    st'.leafP = st.leafP ∧ st'.branchB = st.branchB ∧ st'.rootB = st.rootB ∧
    st'.nodeBit = st.nodeBit ∧ st'.keyOf = st.keyOf := by
  rw [ebim_insertS] at hrun
  cases hre : st.rootB 0 with
  | none =>
    rw [hre] at hrun
    have hrun2 : some (setNodeP (setLeafP (setB st .rt 0 (some ⟨.br nw, 0⟩))
        nw (some ⟨.rt, 0⟩)) nw none, nw) = some (st', ret) := hrun
    exact (frame_ret_nw hrun2 hne).elim
  | some troot =>
    rw [hre] at hrun
    have hrun2 : insLoopS (uniqFlag st) nw (8 * len) fuel st troot.base troot.tag
        .rt 0 0 = some (st', ret) := hrun
    have hst := insLoopS_frame (uniqFlag st) nw (8 * len) fuel st troot.base troot.tag
      .rt 0 0 st' ret hrun2 hne
    rw [hst]
    refine ⟨by simp [setNodeP], ?_, rfl, rfl, rfl, rfl, rfl⟩
    intro j hj
    simp [setNodeP, hj]

theorem claim_C10_witness :
    ((setNodeP CST 2 (CST.leafP 1)).nodeP 2 = CST.leafP 1 ∧
      (∀ j, j ≠ 2 → (setNodeP CST 2 (CST.leafP 1)).nodeP j = CST.nodeP j) ∧
      (setNodeP CST 2 (CST.leafP 1)).leafP = CST.leafP ∧
      (setNodeP CST 2 (CST.leafP 1)).branchB = CST.branchB ∧
      (setNodeP CST 2 (CST.leafP 1)).rootB = CST.rootB ∧
      (setNodeP CST 2 (CST.leafP 1)).nodeBit = CST.nodeBit ∧
      (setNodeP CST 2 (CST.leafP 1)).keyOf = CST.keyOf) ∧
    (1 : Nat) ≠ 2 :=
  ⟨claim_C10_reject_frame CST 2 1 1 (setNodeP CST 2 (CST.leafP 1)) 1
    (by
      simp [ebim_insertS, insLoopS, uniqFlag, CST, leafD, leafDiff, equal_bits,
        cmp_bits, keyBit, byteAt])
    (by decide), by decide⟩

end Ebim
